import Mathlib

/-!
Verification development for the EnDAS sequential data-assimilation library.

This file gives a shallow embedding, in Lean 4, of the parts of the C++
sources that the specification talks about:

* `MemoryArrayCache` / `ArrayCache` (src/src/Caching/MemoryArrayCache.cpp,
  src/src/Caching/ArrayCache.cpp): handle-based array store backing the
  fixed-lag smoother.
* `GenericDomain` (src/src/DA/GenericDomain.cpp): trivial domain partitioning
  where local domain `d` is state element `d`.
* The `EnKSVariant` analysis transforms `EnKS` and `ESTKS`
  (src/src/DA/Algorithm/EnKSVariantEnKS.cpp, EnKSVariantESTKS.cpp).
* The `EnsembleKalmanSmoother` orchestrator
  (src/src/DA/Algorithm/EnsembleKalmanSmoother.cpp): analysis bracket,
  transform accumulation, and the lagged-smoother backward recursion.

Modelling conventions: C++ `double` arithmetic is modelled by exact field
arithmetic (a linearly ordered field `K`, instantiated at `ℚ` or `ℝ`);
Eigen arrays become `Matrix (Fin n) (Fin N) K`; `ENDAS_ASSERT` failures and
fallible lookups are modelled with `Option`; in-place mutation becomes
explicit state passing.
-/

namespace Endas

open Matrix

universe u

/-! ## MemoryArrayCache (src/src/Caching/MemoryArrayCache.cpp)

The C++ `MemoryArrayCache::Data` holds an integer `handleCounter` and an
`unordered_map<handle_t, shared_ptr<Array2d>>`.  We model the map as an
association list keyed by `ℕ` (the counter is value-initialized to 0 and only
ever incremented, so handles never go negative). -/

structure MemoryArrayCache (α : Type u) where
  handleCounter : ℕ
  entries : List (ℕ × α)

namespace MemoryArrayCache

variable {α : Type u}

/-- A freshly constructed cache: counter 0, no entries. -/
def emptyCache : MemoryArrayCache α := ⟨0, []⟩

/-- `put` (MemoryArrayCache.cpp lines 27-34): stores a **copy** of the array
under the current counter value, post-increments the counter and returns the
handle.  The argument is stored by value, which models the C++
`make_shared<Array2d>(data)` deep copy. -/
def put (c : MemoryArrayCache α) (a : α) : ℕ × MemoryArrayCache α :=
  (c.handleCounter, ⟨c.handleCounter + 1, (c.handleCounter, a) :: c.entries⟩)

/-- First-match lookup in the entry list (`unordered_map::find`). -/
def getEntries : List (ℕ × α) → ℕ → Option α
  | [], _ => none
  | e :: es, h => if e.1 = h then some e.2 else getEntries es h

/-- `get` (lines 37-44): looks the handle up; a missing handle trips
`ENDAS_ASSERT` (which throws `AssertionError`), modelled as `none`. -/
def get (c : MemoryArrayCache α) (h : ℕ) : Option α :=
  getEntries c.entries h

/-- Drops the entries stored under key `h` (`unordered_map::erase`). -/
def removeEntries : List (ℕ × α) → ℕ → List (ℕ × α)
  | [], _ => []
  | e :: es, h => if e.1 = h then removeEntries es h else e :: removeEntries es h

/-- `remove` (lines 46-50): `entries.erase(handle)` — the handle's entry is
dropped from the map. -/
def remove (c : MemoryArrayCache α) (h : ℕ) : MemoryArrayCache α :=
  ⟨c.handleCounter, removeEntries c.entries h⟩

/-- `clear` (lines 52-56): drops all entries **and resets the handle counter
to 0**. -/
def clear : MemoryArrayCache α := ⟨0, []⟩

/-- `ArrayCache::pop` (src/src/Caching/ArrayCache.cpp lines 18-23):
`get` followed by `remove` when the entry exists. -/
def pop (c : MemoryArrayCache α) (h : ℕ) : Option α × MemoryArrayCache α :=
  match c.get h with
  | some a => (some a, c.remove h)
  | none => (none, c)

/-- Entrywise update of the value stored under key `h`. -/
def updateEntries : List (ℕ × α) → ℕ → α → List (ℕ × α)
  | [], _, _ => []
  | e :: es, h, a =>
    if e.1 = h then (e.1, a) :: updateEntries es h a
    else e :: updateEntries es h a

/-- In-place mutation of a checked-out entry (the smoother mutates the array
behind the `shared_ptr` returned by `get` and then calls `markDirty`, which is
a no-op for the memory backend). -/
def update (c : MemoryArrayCache α) (h : ℕ) (a : α) : MemoryArrayCache α :=
  ⟨c.handleCounter, updateEntries c.entries h a⟩

theorem getEntries_removeEntries_self (es : List (ℕ × α)) (h : ℕ) :
    getEntries (removeEntries es h) h = none := by
  induction es with
  | nil => rfl
  | cons e es ih =>
    by_cases he : e.1 = h
    · rw [removeEntries, if_pos he]; exact ih
    · rw [removeEntries, if_neg he, getEntries, if_neg he]; exact ih

theorem getEntries_removeEntries_ne (es : List (ℕ × α)) (h h' : ℕ)
    (hne : h' ≠ h) : getEntries (removeEntries es h) h' = getEntries es h' := by
  induction es with
  | nil => rfl
  | cons e es ih =>
    by_cases he : e.1 = h
    · have hne' : ¬ e.1 = h' := fun hc => hne (hc ▸ he ▸ rfl)
      rw [removeEntries, if_pos he, getEntries, if_neg hne']
      exact ih
    · by_cases he' : e.1 = h'
      · rw [removeEntries, if_neg he, getEntries, if_pos he', getEntries,
          if_pos he']
      · rw [removeEntries, if_neg he, getEntries, if_neg he', getEntries,
          if_neg he']
        exact ih

theorem getEntries_updateEntries_self (es : List (ℕ × α)) (h : ℕ) (b : α) :
    getEntries (updateEntries es h b) h = (getEntries es h).map (fun _ => b) := by
  induction es with
  | nil => rfl
  | cons e es ih =>
    by_cases he : e.1 = h
    · rw [updateEntries, if_pos he, getEntries, if_pos he, getEntries,
        if_pos he]
      rfl
    · rw [updateEntries, if_neg he, getEntries, if_neg he, getEntries,
        if_neg he]
      exact ih

theorem getEntries_updateEntries_ne (es : List (ℕ × α)) (h h' : ℕ) (b : α)
    (hne : h' ≠ h) :
    getEntries (updateEntries es h b) h' = getEntries es h' := by
  induction es with
  | nil => rfl
  | cons e es ih =>
    by_cases he : e.1 = h
    · have hne' : ¬ e.1 = h' := fun hc => hne (hc ▸ he ▸ rfl)
      rw [updateEntries, if_pos he, getEntries, if_neg hne', getEntries,
        if_neg hne']
      exact ih
    · by_cases he' : e.1 = h'
      · rw [updateEntries, if_neg he, getEntries, if_pos he', getEntries,
          if_pos he']
      · rw [updateEntries, if_neg he, getEntries, if_neg he', getEntries,
          if_neg he']
        exact ih

@[simp] theorem get_remove_self (c : MemoryArrayCache α) (h : ℕ) :
    (c.remove h).get h = none :=
  getEntries_removeEntries_self c.entries h

theorem get_remove_ne (c : MemoryArrayCache α) (h h' : ℕ) (hne : h' ≠ h) :
    (c.remove h).get h' = c.get h' :=
  getEntries_removeEntries_ne c.entries h h' hne

theorem get_update_self (c : MemoryArrayCache α) (h : ℕ) (a b : α)
    (hlive : c.get h = some a) : (c.update h b).get h = some b := by
  show getEntries (updateEntries c.entries h b) h = some b
  rw [getEntries_updateEntries_self]
  rw [get] at hlive
  rw [hlive]
  rfl

theorem get_update_ne (c : MemoryArrayCache α) (h h' : ℕ) (b : α)
    (hne : h' ≠ h) : (c.update h b).get h' = c.get h' :=
  getEntries_updateEntries_ne c.entries h h' b hne

@[simp] theorem put_fst (c : MemoryArrayCache α) (a : α) :
    (c.put a).1 = c.handleCounter := rfl

@[simp] theorem put_counter (c : MemoryArrayCache α) (a : α) :
    (c.put a).2.handleCounter = c.handleCounter + 1 := rfl

@[simp] theorem remove_counter (c : MemoryArrayCache α) (h : ℕ) :
    (c.remove h).handleCounter = c.handleCounter := rfl

@[simp] theorem update_counter (c : MemoryArrayCache α) (h : ℕ) (a : α) :
    (c.update h a).handleCounter = c.handleCounter := rfl

@[simp] theorem pop_counter (c : MemoryArrayCache α) (h : ℕ) :
    (c.pop h).2.handleCounter = c.handleCounter := by
  rw [pop]
  cases c.get h <;> rfl

end MemoryArrayCache

/-! ### Operation sequences over the cache (for the handle-lifecycle claims) -/

/-- One operation of the `ArrayCache` interface applied to a
`MemoryArrayCache`. -/
inductive CacheOp (α : Type u) where
  | put (a : α)
  | getOp (h : ℕ)
  | removeOp (h : ℕ)
  | popOp (h : ℕ)
  | clearOp
  | markDirtyOp (h : ℕ)
  deriving DecidableEq

/-- Runs one operation; returns the new cache state and the handle returned
if the operation was a `put`. -/
def runOp {α : Type u} (c : MemoryArrayCache α) : CacheOp α → MemoryArrayCache α × Option ℕ
  | .put a => ((c.put a).2, some (c.put a).1)
  | .getOp _ => (c, none)
  | .removeOp h => (c.remove h, none)
  | .popOp h => ((c.pop h).2, none)
  | .clearOp => (MemoryArrayCache.clear, none)
  | .markDirtyOp _ => (c, none)

/-- Runs a sequence of operations; returns the final cache state and the list
of handles returned by the `put` operations, in order. -/
def runOps {α : Type u} (c : MemoryArrayCache α) : List (CacheOp α) → MemoryArrayCache α × List ℕ
  | [] => (c, [])
  | op :: ops =>
    ((runOps (runOp c op).1 ops).1,
      (runOp c op).2.toList ++ (runOps (runOp c op).1 ops).2)

/-- Without `clear`, every operation keeps the handle counter at or above its
current value, and every handle handed out by `put` is at least the counter at
the start of the sequence and the handle list is strictly increasing. -/
theorem runOps_handles_lb {α : Type u} (ops : List (CacheOp α)) :
    ∀ c : MemoryArrayCache α, CacheOp.clearOp ∉ ops →
      (∀ x ∈ (runOps c ops).2, c.handleCounter ≤ x) ∧
        List.Pairwise (· < ·) (runOps c ops).2 := by
  induction ops with
  | nil => intro c _; simp [runOps]
  | cons op ops ih =>
    intro c hnc
    have hop : op ≠ CacheOp.clearOp := by
      intro h; exact hnc (h ▸ List.mem_cons_self _ _)
    have hops : CacheOp.clearOp ∉ ops := fun h => hnc (List.mem_cons_of_mem _ h)
    cases op with
    | put a =>
      have ihp := ih (c.put a).2 hops
      constructor
      · intro x hx
        rcases List.mem_append.1 hx with hx | hx
        · simp [runOp] at hx
          omega
        · have := ihp.1 x hx
          simp at this
          omega
      · refine List.pairwise_append.2 ⟨by simp [runOp], ihp.2, ?_⟩
        intro x hx y hy
        simp [runOp] at hx
        have := ihp.1 y hy
        simp at this
        omega
    | getOp h => simpa [runOps, runOp] using ih c hops
    | removeOp h =>
      have := ih (c.remove h) hops
      simpa [runOps, runOp] using this
    | popOp h =>
      have := ih (c.pop h).2 hops
      constructor
      · intro x hx
        have hx' : x ∈ (runOps (c.pop h).2 ops).2 := by
          simpa [runOps, runOp] using hx
        have := this.1 x hx'
        simpa using this
      · have h2 := this.2
        simpa [runOps, runOp] using h2
    | clearOp => exact absurd rfl hop
    | markDirtyOp h => simpa [runOps, runOp] using ih c hops

/-! ## GenericDomain (src/src/DA/GenericDomain.cpp)

`GenericDomain(size)` partitions a one-dimensional state space of `n`
elements into `n` local domains, each of local size 1; local domain `d` is
state element (row) `d`.  `getLocal` extracts row `d` of the global array as a
1×N block, `putLocal` writes it back. -/

namespace GenericDomain

variable {K : Type} {n N : ℕ}

/-- `GenericDomain::getLocal` (lines 66-69): `outXl = Xg.row(d)`. -/
def getLocal (d : Fin n) (Xg : Matrix (Fin n) (Fin N) K) :
    Matrix (Fin 1) (Fin N) K :=
  Matrix.of fun _ j => Xg d j

/-- `GenericDomain::putLocal` (lines 71-74): `Xg.row(d) = Xl`. -/
def putLocal (d : Fin n) (Xl : Matrix (Fin 1) (Fin N) K)
    (Xg : Matrix (Fin n) (Fin N) K) : Matrix (Fin n) (Fin N) K :=
  Matrix.of fun i j => if i = d then Xl 0 j else Xg i j

/-- Round trip: re-inserting the unmodified extracted block changes nothing. -/
theorem putLocal_getLocal (d : Fin n) (E : Matrix (Fin n) (Fin N) K) :
    putLocal d (getLocal d E) E = E := by
  funext i j
  show (if i = d then E d j else E i j) = E i j
  split
  · next h => rw [h]
  · rfl

/-- Folding `putLocal d (getLocal d E)` over a list of domains writes row `d`
of `E` for every `d` in the list and leaves other rows of the buffer alone. -/
theorem foldl_putLocal_spec (E : Matrix (Fin n) (Fin N) K) (l : List (Fin n)) :
    ∀ B : Matrix (Fin n) (Fin N) K,
      l.foldl (fun B d => putLocal d (getLocal d E) B) B =
        Matrix.of fun i j => if i ∈ l then E i j else B i j := by
  induction l with
  | nil => intro B; funext i j; simp
  | cons d l ih =>
    intro B
    rw [List.foldl_cons, ih]
    funext i j
    show (if i ∈ l then E i j
      else if i = d then E d j else B i j) =
        (if i ∈ d :: l then E i j else B i j)
    by_cases hl : i ∈ l
    · simp [hl]
    · by_cases hd : i = d
      · simp [hl, hd]
      · simp [hl, hd]

end GenericDomain

/-! ### Claims C6, C7, C8, C9 -/

/-- A caller-owned array variable next to the cache, used to express the
deep-copy semantics of `put` (C8): mutating the caller's array after `put`
is modelled as changing `var`, which the cache state does not reference. -/
structure CacheWorld (α : Type u) where
  cache : MemoryArrayCache α
  var : α

/-- `h = cache.put(A)` where `A` is the caller's array. -/
def CacheWorld.putVar {α : Type u} (w : CacheWorld α) : ℕ × CacheWorld α :=
  ((w.cache.put w.var).1, ⟨(w.cache.put w.var).2, w.var⟩)

/-- Caller mutates their own array `A` after the `put`. -/
def CacheWorld.mutateVar {α : Type u} (w : CacheWorld α) (a : α) : CacheWorld α :=
  ⟨w.cache, a⟩

/-- C6 (counterexample): the claim quantifies over *every* sequence of
operations, but `MemoryArrayCache::clear` resets the handle counter to 0
(MemoryArrayCache.cpp line 55), so the sequence put, clear, put hands out the
handle 0 twice — the second `put` returns a handle equal to one returned
earlier in the sequence. -/
theorem claimC6_counterexample :
    (runOps (MemoryArrayCache.emptyCache : MemoryArrayCache ℕ)
      [CacheOp.put 7, CacheOp.clearOp, CacheOp.put 8]).2 = [0, 0] ∧
    ¬ List.Pairwise (· < ·)
      (runOps (MemoryArrayCache.emptyCache : MemoryArrayCache ℕ)
        [CacheOp.put 7, CacheOp.clearOp, CacheOp.put 8]).2 := by
  constructor
  · rfl
  · intro hp
    rw [show (runOps (MemoryArrayCache.emptyCache : MemoryArrayCache ℕ)
      [CacheOp.put 7, CacheOp.clearOp, CacheOp.put 8]).2 = [0, 0] from rfl] at hp
    simp at hp

/-- C6 (amended): in every operation sequence that does not contain `clear`,
successive `put` calls return strictly increasing handles — in particular a
handle never equal to any handle returned earlier in the sequence — and after
`remove h` the handle `h` no longer resolves to an array.  (`clear` resets the
handle counter, so handles are reused across a `clear`.) -/
theorem claimC6 {α : Type u} (c : MemoryArrayCache α) (ops : List (CacheOp α))
    (hnc : CacheOp.clearOp ∉ ops) :
    List.Pairwise (· < ·) (runOps c ops).2 ∧
      ∀ h : ℕ, (c.remove h).get h = none :=
  ⟨(runOps_handles_lb ops c hnc).2,
    fun h => MemoryArrayCache.get_remove_self c h⟩

/-- C6 witness: a concrete clear-free sequence of two puts gives the strictly
increasing handle list, and a removed handle no longer resolves. -/
theorem claimC6_witness :
    List.Pairwise (· < ·)
      (runOps (MemoryArrayCache.emptyCache : MemoryArrayCache ℕ)
        [CacheOp.put 7, CacheOp.put 8]).2 ∧
    ∀ h : ℕ, ((MemoryArrayCache.emptyCache : MemoryArrayCache ℕ).remove h).get h = none :=
  claimC6 MemoryArrayCache.emptyCache [CacheOp.put 7, CacheOp.put 8] (by decide)

/-- C7: for a live handle `h` holding `a`, `pop h` returns the stored array
and leaves the cache with `h` removed, and a subsequent `get h` — equally a
`get` after `remove h` — fails (the `ENDAS_ASSERT` in
`MemoryArrayCache::get`, modelled as `none`) rather than returning an
array. -/
theorem claimC7 {α : Type u} (c : MemoryArrayCache α) (h : ℕ) (a : α)
    (hget : c.get h = some a) :
    c.pop h = (some a, c.remove h) ∧
      (c.pop h).2.get h = none ∧ (c.remove h).get h = none := by
  have hpop : c.pop h = (some a, c.remove h) := by
    rw [MemoryArrayCache.pop, hget]
  refine ⟨hpop, ?_, MemoryArrayCache.get_remove_self c h⟩
  rw [hpop]
  exact MemoryArrayCache.get_remove_self c h

/-- C7 witness: put an array into an empty cache, pop it, get fails. -/
theorem claimC7_witness :
    ((MemoryArrayCache.emptyCache : MemoryArrayCache ℕ).put 42).2.pop 0 =
      (some 42, ((MemoryArrayCache.emptyCache : MemoryArrayCache ℕ).put 42).2.remove 0) ∧
    (((MemoryArrayCache.emptyCache : MemoryArrayCache ℕ).put 42).2.pop 0).2.get 0 = none ∧
    (((MemoryArrayCache.emptyCache : MemoryArrayCache ℕ).put 42).2.remove 0).get 0 = none :=
  claimC7 ((MemoryArrayCache.emptyCache : MemoryArrayCache ℕ).put 42).2 0 42 (by rfl)

/-- C8: `MemoryArrayCache::put` stores a deep copy
(`make_shared<Array2d>(data)`, MemoryArrayCache.cpp line 29): `get` on the
returned handle yields the array value at `put` time, and mutating the
caller's array afterwards does not change the array held by the cache. -/
theorem claimC8 {α : Type u} (w : CacheWorld α) (a' : α) :
    ((w.putVar.2.mutateVar a').cache).get w.putVar.1 = some w.var ∧
      (w.putVar.2.mutateVar a').var = a' := by
  constructor
  · show MemoryArrayCache.getEntries
      ((w.cache.handleCounter, w.var) :: w.cache.entries) w.cache.handleCounter = some w.var
    rw [MemoryArrayCache.getEntries, if_pos rfl]
  · rfl

/-- C9: for the `GenericDomain` partitioning (local domain `d` = state
element `d`, covering the full state exactly once with no overlap),
`getLocal` followed by `putLocal` of the unmodified block leaves a global
array unchanged, and extracting every domain and re-inserting the blocks
into a zero-initialized buffer reconstructs the original global ensemble
exactly. -/
theorem claimC9 {K : Type} [Zero K] {n N : ℕ} (E : Matrix (Fin n) (Fin N) K) :
    (∀ d : Fin n, GenericDomain.putLocal d (GenericDomain.getLocal d E) E = E) ∧
      (List.finRange n).foldl
        (fun B d => GenericDomain.putLocal d (GenericDomain.getLocal d E) B)
        (0 : Matrix (Fin n) (Fin N) K) = E := by
  refine ⟨fun d => GenericDomain.putLocal_getLocal d E, ?_⟩
  rw [GenericDomain.foldl_putLocal_spec]
  funext i j
  simp [List.mem_finRange]

/-! ## ESTKS deviation basis T (src/src/DA/Algorithm/EnKSVariantESTKS.cpp)

`ESTKS::init(n, N)` (lines 17-25) precomputes the N×(N-1) matrix `mT`:
all entries `-a` with `a = (1/N)·(1/(1/√N + 1))`, then the main diagonal set
to `1-a`, then the whole last row set to `-1/√N`.  C++ `double` arithmetic is
modelled by exact real arithmetic. -/

namespace ESTKS

/-- `double a = (1.0 / (double)N) * (1.0 / (1.0 / sqrt(N) + 1.0))`. -/
noncomputable def aCoef (N : ℕ) : ℝ :=
  (1 / (N : ℝ)) * (1 / (1 / Real.sqrt N + 1))

/-- The precomputed deviation-basis matrix `mT` of `ESTKS::init`.  The
diagonal of an N×(N-1) matrix has entries (i,i) for i < N-1 only, so the
last-row write never collides with a diagonal entry. -/
noncomputable def mT (N : ℕ) : Matrix (Fin N) (Fin (N - 1)) ℝ :=
  Matrix.of fun i j =>
    if (i : ℕ) = N - 1 then -(1 / Real.sqrt N)
    else if (i : ℕ) = (j : ℕ) then 1 - aCoef N
    else -(aCoef N)

theorem mT_apply (N : ℕ) (i : Fin N) (j : Fin (N - 1)) :
    mT N i j = if (i : ℕ) = N - 1 then -(1 / Real.sqrt N)
      else if (i : ℕ) = (j : ℕ) then 1 - aCoef N
      else -(aCoef N) := rfl

/-- Every entry of T is a shared constant `-a` plus a correction at the last
row plus a correction at the diagonal position of its column. -/
theorem mT_decomp (M : ℕ) (i : Fin (M + 2)) (j : Fin (M + 1)) :
    mT (M + 2) i j = -(aCoef (M + 2)) +
      (if i = Fin.last (M + 1) then aCoef (M + 2) - 1 / Real.sqrt ((M + 2 : ℕ) : ℝ) else 0) +
      (if i = j.castSucc then (1 : ℝ) else 0) := by
  rw [mT_apply]
  have hidx : M + 2 - 1 = M + 1 := by omega
  simp only [hidx]
  by_cases h1 : (i : ℕ) = M + 1
  · have hi : i = Fin.last (M + 1) := Fin.ext (by simpa using h1)
    have hj : ¬ i = j.castSucc := by
      rw [hi]; exact (Fin.castSucc_lt_last j).ne'
    rw [if_pos h1, if_pos hi, if_neg hj]
    ring
  · have hlast : ¬ i = Fin.last (M + 1) := fun hc => h1 (by rw [hc]; simp)
    rw [if_neg h1]
    by_cases h2 : (i : ℕ) = (j : ℕ)
    · have hcs : i = j.castSucc := Fin.ext (by simpa using h2)
      rw [if_pos h2, if_neg hlast, if_pos hcs]
      ring
    · have hcs : ¬ i = j.castSucc := fun hc => h2 (by rw [hc]; simp)
      rw [if_neg h2, if_neg hlast, if_neg hcs]
      ring

/-- Sum over `Fin M` of a product of two three-part summands, each a constant
plus two single-point corrections. -/
theorem sum_three_prod (M : ℕ) (x y z w : ℝ) (p q r : Fin M)
    (hqp : ¬ q = p) (hrp : ¬ r = p) :
    (∑ i : Fin M,
      (x + (if i = p then y else 0) + (if i = q then z else 0)) *
        (x + (if i = p then y else 0) + (if i = r then w else 0))) =
    (M : ℝ) * (x * x) + 2 * (x * y) + x * z + x * w + y * y +
      (if q = r then z * w else 0) := by
  have key : ∀ i : Fin M,
      (x + (if i = p then y else 0) + (if i = q then z else 0)) *
        (x + (if i = p then y else 0) + (if i = r then w else 0)) =
      x * x + x * (if i = p then y else 0) + x * (if i = r then w else 0) +
        (if i = p then y else 0) * x +
        (if i = p then y else 0) * (if i = p then y else 0) +
        (if i = p then y else 0) * (if i = r then w else 0) +
        (if i = q then z else 0) * x +
        (if i = q then z else 0) * (if i = p then y else 0) +
        (if i = q then z else 0) * (if i = r then w else 0) := by
    intro i; ring
  rw [Finset.sum_congr rfl (fun i _ => key i)]
  simp only [mul_ite, ite_mul, mul_zero, zero_mul, Finset.sum_add_distrib,
    Finset.sum_ite_eq', Finset.mem_univ, if_true, Finset.sum_const,
    Finset.card_univ, Fintype.card_fin, nsmul_eq_mul]
  have hpq : ¬ p = q := fun hc => hqp hc.symm
  have hpr : ¬ p = r := fun hc => hrp hc.symm
  simp only [if_neg hqp, if_neg hrp, if_neg hpq, if_neg hpr]
  by_cases hqr : q = r
  · subst hqr
    simp only [if_pos rfl]
    ring
  · have hrq : ¬ r = q := fun hc => hqr hc.symm
    simp only [if_neg hqr, if_neg hrq]
    ring

theorem estks_alg1 (Nr s a : ℝ) (hs : 0 < s) (hN : Nr = s * s)
    (ha : a = 1 / Nr * (1 / (1 / s + 1))) :
    Nr * -a + ((a - 1 / s) + 1) = 0 := by
  subst hN; subst ha
  have hs0 : s ≠ 0 := ne_of_gt hs
  have h1 : 1 / s + 1 ≠ 0 := by positivity
  field_simp
  ring

theorem estks_alg2 (Nr s a : ℝ) (hs : 0 < s) (hN : Nr = s * s)
    (ha : a = 1 / Nr * (1 / (1 / s + 1))) :
    Nr * (-a * -a) + 2 * (-a * (a - 1 / s)) + -a * 1 + -a * 1 +
      (a - 1 / s) * (a - 1 / s) = 0 := by
  subst hN; subst ha
  have hs0 : s ≠ 0 := ne_of_gt hs
  have h1 : 1 / s + 1 ≠ 0 := by positivity
  field_simp
  ring

theorem sqrt_facts (M : ℕ) :
    0 < Real.sqrt ((M + 2 : ℕ) : ℝ) ∧
      ((M + 2 : ℕ) : ℝ) =
        Real.sqrt ((M + 2 : ℕ) : ℝ) * Real.sqrt ((M + 2 : ℕ) : ℝ) := by
  have hpos : (0 : ℝ) < ((M + 2 : ℕ) : ℝ) := by push_cast; positivity
  exact ⟨Real.sqrt_pos.2 hpos, (Real.mul_self_sqrt (le_of_lt hpos)).symm⟩

/-- Each column of T sums to zero. -/
theorem mT_col_sum (M : ℕ) (j : Fin (M + 1)) :
    (∑ i : Fin (M + 2), mT (M + 2) i j) = 0 := by
  rw [Finset.sum_congr rfl (fun i _ => mT_decomp M i j)]
  simp only [Finset.sum_add_distrib, Finset.sum_ite_eq', Finset.mem_univ,
    if_true, Finset.sum_const, Finset.card_univ, Fintype.card_fin,
    nsmul_eq_mul]
  have halg := estks_alg1 ((M + 2 : ℕ) : ℝ) (Real.sqrt ((M + 2 : ℕ) : ℝ))
    (aCoef (M + 2)) (sqrt_facts M).1 (sqrt_facts M).2 (by rw [aCoef])
  linarith [halg]

/-- T has orthonormal columns: `Tᵀ·T = I` (of size (N-1)×(N-1)). -/
theorem mT_TtT (M : ℕ) : (mT (M + 2))ᵀ * mT (M + 2) = 1 := by
  apply Matrix.ext
  intro j j'
  rw [Matrix.mul_apply, Matrix.one_apply]
  simp only [Matrix.transpose_apply]
  rw [Finset.sum_congr rfl (fun i _ => by
    rw [mT_decomp M i j, mT_decomp M i j'])]
  rw [sum_three_prod (M + 2) (-(aCoef (M + 2)))
    (aCoef (M + 2) - 1 / Real.sqrt ((M + 2 : ℕ) : ℝ)) 1 1
    (Fin.last (M + 1)) j.castSucc j'.castSucc
    (Fin.castSucc_lt_last j).ne (Fin.castSucc_lt_last j').ne]
  have halg := estks_alg2 ((M + 2 : ℕ) : ℝ) (Real.sqrt ((M + 2 : ℕ) : ℝ))
    (aCoef (M + 2)) (sqrt_facts M).1 (sqrt_facts M).2 (by rw [aCoef])
  simp only [Fin.castSucc_inj]
  by_cases hjj : j = j'
  · rw [if_pos hjj, if_pos hjj]
    linarith [halg]
  · rw [if_neg hjj, if_neg hjj]
    linarith [halg]

end ESTKS

/-- C5 (amended): for every ensemble size N ≥ 2 the matrix T precomputed by
`ESTKS::init(n, N)` has shape N×(N-1) (visible in its Lean type), each of its
columns sums to zero (`Tᵀ·1 = 0`), and its columns are orthonormal:
`Tᵀ·T = I` — not `I - (1/N)·1·1ᵀ` as the claim states (it is `T·Tᵀ`, the
N×N projection, that equals `I - (1/N)·1·1ᵀ`). -/
theorem claimC5 (N : ℕ) (hN : 2 ≤ N) :
    Matrix.mulVec (ESTKS.mT N)ᵀ (fun _ => (1 : ℝ)) = 0 ∧
      (ESTKS.mT N)ᵀ * ESTKS.mT N = 1 := by
  obtain ⟨M, rfl⟩ : ∃ M, N = M + 2 := ⟨N - 2, by omega⟩
  constructor
  · funext j
    show (∑ i, (ESTKS.mT (M + 2))ᵀ j i * 1) = 0
    simp only [mul_one, Matrix.transpose_apply]
    exact ESTKS.mT_col_sum M j
  · exact ESTKS.mT_TtT M

/-- C5 witness: the amended claim instantiated at N = 4. -/
theorem claimC5_witness :
    2 ≤ 4 ∧
      (Matrix.mulVec (ESTKS.mT 4)ᵀ (fun _ => (1 : ℝ)) = 0 ∧
        (ESTKS.mT 4)ᵀ * ESTKS.mT 4 = 1) :=
  ⟨by norm_num, claimC5 4 (by norm_num)⟩

/-- C5 (counterexample): at N = 4 the product `Tᵀ·T` is the 3×3 identity,
not `I - (1/4)·1·1ᵀ` as the claim asserts — the two differ already in the
(0,0) entry (1 versus 3/4). -/
theorem claimC5_counterexample :
    ¬ ((ESTKS.mT 4)ᵀ * ESTKS.mT 4 =
      (1 : Matrix (Fin 3) (Fin 3) ℝ) - (1 / 4 : ℝ) • Matrix.of fun _ _ => (1 : ℝ)) := by
  intro hc
  rw [ESTKS.mT_TtT 2] at hc
  have h00 := congrFun (congrFun hc 0) 0
  simp [Matrix.one_apply, Matrix.sub_apply, Matrix.smul_apply] at h00
  norm_num at h00

/-! ## The ensembleTransform analysis step (claim C1)

`EnKS::ensembleTransform` (EnKSVariantEnKS.cpp lines 39-87) and
`ESTKS::ensembleTransform` (EnKSVariantESTKS.cpp lines 52-109) compute the
transform `Xout` and update the ensemble in place.  Both are embedded as
relations between the inputs and the pair (updated ensemble, returned
transform): the stochastic observation perturbations of EnKS (after the
`toAnomaly` de-meaning), the Cholesky solves (`cholF.solve`, `AinvChol.solve`,
`R.solve`) and the SVD-based `inverseSymmetricSqrt` are existentially
quantified with their defining equations (`F·M = HX`; `C` symmetric with
`C·A⁻¹·C = I`, which characterises `U·Σ^(-1/2)·Uᵀ` for the symmetric
positive-definite `A⁻¹` arising in a well-posed run). -/

/-- All-ones matrix (Eigen `Array::Constant(1)`, or a column/row broadcast). -/
def ones (a b : ℕ) : Matrix (Fin a) (Fin b) ℝ :=
  Matrix.of fun _ _ => 1

@[simp] theorem ones_apply (a b : ℕ) (i : Fin a) (j : Fin b) :
    ones a b i j = 1 := rfl

namespace EnKS

/-- `EnKS::ensembleTransform`: relation between the inputs (anomaly
observations `HX = H(E - mean(E))`, `HE = H(E)` from `processGlobalEnsemble`,
observations `z`, dense observation covariance `R`, input ensemble `E`) and
the outputs (`Eout`, `Xout`).  `Msol` is the Cholesky solve result
(`K = Msolᵀ` with `F·Msol = HX`, `F = HX·HXᵀ + (N-1)·R`), `D0` the sampled
observation perturbations after the zero-mean `toAnomaly` pass. -/
def transformSpec (n N nobs : ℕ) (HX HE : Matrix (Fin nobs) (Fin N) ℝ)
    (z : Matrix (Fin nobs) (Fin 1) ℝ) (R : Matrix (Fin nobs) (Fin nobs) ℝ)
    (E Eout : Matrix (Fin n) (Fin N) ℝ)
    (Xout : Matrix (Fin N) (Fin N) ℝ) : Prop :=
  ∃ (Msol D0 : Matrix (Fin nobs) (Fin N) ℝ),
    (HX * HXᵀ + (((N : ℝ) - 1) • R)) * Msol = HX ∧
    (∀ i : Fin nobs, ∑ k : Fin N, D0 i k = 0) ∧
    Xout = Msolᵀ * (D0 + z * ones 1 N - HE) + 1 ∧
    Eout = E * Xout

end EnKS

namespace ESTKS

/-- `double rho = 1.0 - (mInflation - 1.0)` (EnKSVariantESTKS.cpp line 56). -/
def rho (infl : ℝ) : ℝ := 1 - (infl - 1)

/-- `A⁻¹ = ρ(N-1)·I + (HL)ᵀ·R⁻¹·(HL)` with `HL = HE·T` and `RinvHL` the
result of `R.solve(HL)` (lines 65-70). -/
noncomputable def Ainv (N nobs : ℕ) (infl : ℝ)
    (HE : Matrix (Fin nobs) (Fin N) ℝ)
    (RinvHL : Matrix (Fin nobs) (Fin (N - 1)) ℝ) :
    Matrix (Fin (N - 1)) (Fin (N - 1)) ℝ :=
  (HE * mT N)ᵀ * RinvHL + (rho infl * ((N : ℝ) - 1)) • 1

/-- `W = C·Tᵀ·√(N-1)` with the mean-update weight vector `w` broadcast over
the columns (lines 80-96). -/
noncomputable def Wmat (N : ℕ) (C : Matrix (Fin (N - 1)) (Fin (N - 1)) ℝ)
    (w : Matrix (Fin (N - 1)) (Fin 1) ℝ) :
    Matrix (Fin (N - 1)) (Fin N) ℝ :=
  Real.sqrt ((N : ℝ) - 1) • (C * (mT N)ᵀ) + w * ones 1 N

/-- The transform applied to the ensemble: `X = (1/N)·1 + T·W`
(lines 98-102). -/
noncomputable def Xapp (N : ℕ) (C : Matrix (Fin (N - 1)) (Fin (N - 1)) ℝ)
    (w : Matrix (Fin (N - 1)) (Fin 1) ℝ) : Matrix (Fin N) (Fin N) ℝ :=
  (1 / (N : ℝ)) • ones N N + mT N * Wmat N C w

/-- The transform written into `Xout` when `ρ ≠ 1`: `(1/N)·1 + (ρ·T)·W`
(lines 104-108). -/
noncomputable def Xret (N : ℕ) (infl : ℝ)
    (C : Matrix (Fin (N - 1)) (Fin (N - 1)) ℝ)
    (w : Matrix (Fin (N - 1)) (Fin 1) ℝ) : Matrix (Fin N) (Fin N) ℝ :=
  (1 / (N : ℝ)) • ones N N + (rho infl • mT N) * Wmat N C w

/-- `ESTKS::ensembleTransform`: relation between the inputs (`Hx = H(mean)`,
`HE = H(E)` from `processGlobalEnsemble`, observations `z`, observation
covariance `R` used through its `solve` contract, input ensemble `E`, stored
inflation factor `infl`) and the outputs (`Eout`, `Xout`). -/
noncomputable def transformSpec (n N nobs : ℕ) (infl : ℝ)
    (Hx : Matrix (Fin nobs) (Fin 1) ℝ) (HE : Matrix (Fin nobs) (Fin N) ℝ)
    (z : Matrix (Fin nobs) (Fin 1) ℝ) (R : Matrix (Fin nobs) (Fin nobs) ℝ)
    (E Eout : Matrix (Fin n) (Fin N) ℝ)
    (Xout : Matrix (Fin N) (Fin N) ℝ) : Prop :=
  ∃ (RinvHL : Matrix (Fin nobs) (Fin (N - 1)) ℝ)
    (C : Matrix (Fin (N - 1)) (Fin (N - 1)) ℝ)
    (RinvDz : Matrix (Fin nobs) (Fin 1) ℝ)
    (w : Matrix (Fin (N - 1)) (Fin 1) ℝ),
    R * RinvHL = HE * mT N ∧
    Cᵀ = C ∧
    C * Ainv N nobs infl HE RinvHL * C = 1 ∧
    R * RinvDz = z - Hx ∧
    Ainv N nobs infl HE RinvHL * w = (HE * mT N)ᵀ * RinvDz ∧
    Eout = E * Xapp N C w ∧
    Xout = (if rho infl = 1 then Xapp N C w else Xret N infl C w)

end ESTKS

/-- C1 (amended): after `ensembleTransform` returns, `E_out = E_in · X_out`
holds for `EnKS` unconditionally; for `ESTKS` it holds whenever no inflation
is deferred (stored inflation factor 1, i.e. ρ = 1).  When ρ ≠ 1, ESTKS
applies `(1/N)·1 + T·W` to the ensemble but returns
`X_out = (1/N)·1 + (ρ·T)·W`, so `E_out ≠ E_in · X_out` in general. -/
theorem claimC1 :
    (∀ (n N nobs : ℕ) (HX HE : Matrix (Fin nobs) (Fin N) ℝ)
      (z : Matrix (Fin nobs) (Fin 1) ℝ) (R : Matrix (Fin nobs) (Fin nobs) ℝ)
      (E Eout : Matrix (Fin n) (Fin N) ℝ) (Xout : Matrix (Fin N) (Fin N) ℝ),
      EnKS.transformSpec n N nobs HX HE z R E Eout Xout → Eout = E * Xout) ∧
    (∀ (n N nobs : ℕ) (infl : ℝ) (Hx : Matrix (Fin nobs) (Fin 1) ℝ)
      (HE : Matrix (Fin nobs) (Fin N) ℝ) (z : Matrix (Fin nobs) (Fin 1) ℝ)
      (R : Matrix (Fin nobs) (Fin nobs) ℝ) (E Eout : Matrix (Fin n) (Fin N) ℝ)
      (Xout : Matrix (Fin N) (Fin N) ℝ),
      ESTKS.rho infl = 1 →
      ESTKS.transformSpec n N nobs infl Hx HE z R E Eout Xout →
      Eout = E * Xout) := by
  constructor
  · intro n N nobs HX HE z R E Eout Xout hspec
    obtain ⟨Msol, D0, _, _, _, hE⟩ := hspec
    exact hE
  · intro n N nobs infl Hx HE z R E Eout Xout hrho hspec
    obtain ⟨RinvHL, C, RinvDz, w, _, _, _, _, _, hE, hX⟩ := hspec
    rw [if_pos hrho] at hX
    rw [hE, hX]

/-- C1 witness: concrete transform runs — an EnKS run (one observation, two
members) and an ESTKS run with inflation factor 1 — for which the theorem
yields `E_out = E_in · X_out`. -/
theorem claimC1_witness :
    (EnKS.transformSpec 1 2 1 0 0 0 1 (ones 1 2) (ones 1 2) 1 ∧
      ones 1 2 = ones 1 2 * (1 : Matrix (Fin 2) (Fin 2) ℝ)) ∧
    (ESTKS.rho 1 = 1 ∧
      ESTKS.transformSpec 1 2 1 1 0 0 0 1 (ones 1 2)
        (ones 1 2 * ESTKS.Xapp 2 1 0) (ESTKS.Xapp 2 1 0) ∧
      ones 1 2 * ESTKS.Xapp 2 1 0 = ones 1 2 * ESTKS.Xapp 2 1 0) := by
  have hrho : ESTKS.rho 1 = 1 := by norm_num [ESTKS.rho]
  have h1 : EnKS.transformSpec 1 2 1 0 0 0 1 (ones 1 2) (ones 1 2) 1 := by
    refine ⟨0, 0, ?_, ?_, ?_, ?_⟩
    · simp
    · simp
    · simp
    · rw [Matrix.mul_one]
  have h2 : ESTKS.transformSpec 1 2 1 1 0 0 0 1 (ones 1 2)
      (ones 1 2 * ESTKS.Xapp 2 1 0) (ESTKS.Xapp 2 1 0) := by
    refine ⟨0, 1, 0, 0, ?_, Matrix.transpose_one, ?_, ?_, ?_, rfl, ?_⟩
    · simp
    · show (1 : Matrix (Fin 1) (Fin 1) ℝ) * ESTKS.Ainv 2 1 1 0 0 * 1 = 1
      rw [Matrix.one_mul, Matrix.mul_one, ESTKS.Ainv]
      simp [ESTKS.rho]
      norm_num
    · simp
    · simp [ESTKS.Ainv]
    · rw [if_pos hrho]
  exact ⟨⟨h1, claimC1.1 1 2 1 0 0 0 1 (ones 1 2) (ones 1 2) 1 h1⟩,
    ⟨hrho, h2, claimC1.2 1 2 1 1 0 0 0 1 (ones 1 2)
      (ones 1 2 * ESTKS.Xapp 2 1 0) (ESTKS.Xapp 2 1 0) hrho h2⟩⟩

/-- The input ensemble of the C1 counterexample run. -/
noncomputable def c1E : Matrix (Fin 1) (Fin 2) ℝ := !![1, 0]

/-- The inverse symmetric square root computed by the C1 counterexample run:
`A⁻¹ = ρ(N-1)·I = (3/4)·I` (HL = 0), whose SVD-based inverse symmetric square
root is `(2/√3)·I`. -/
noncomputable def c1C : Matrix (Fin 1) (Fin 1) ℝ := (2 / Real.sqrt 3) • 1

theorem aCoef_two_lt_one : ESTKS.aCoef 2 < 1 := by
  rw [ESTKS.aCoef]
  push_cast
  have hs2 : 0 < Real.sqrt 2 := Real.sqrt_pos.2 (by norm_num)
  have h1 : 0 < 1 / Real.sqrt 2 := by positivity
  have h2 : 1 / (1 / Real.sqrt 2 + 1) < 1 := by
    rw [div_lt_one (by linarith)]
    linarith
  have h3 : 0 < 1 / (1 / Real.sqrt 2 + 1) := by positivity
  nlinarith

/-- C1 (counterexample): a concrete ESTKS run with deferred inflation
(inflation factor 5/4, so ρ = 3/4): one observation with `H = 0`, `R = I`,
`z = 0`, ensemble `E = (1, 0)` with N = 2 members.  The run satisfies the
ESTKS transform relation, yet the updated ensemble differs from
`E_in · X_out` — the ensemble was multiplied by `(1/N)·1 + T·W` while the
returned transform is `(1/N)·1 + (ρ·T)·W`. -/
theorem claimC1_counterexample :
    ESTKS.transformSpec 1 2 1 (5 / 4) 0 0 0 1 c1E
      (c1E * ESTKS.Xapp 2 c1C 0) (ESTKS.Xret 2 (5 / 4) c1C 0) ∧
    c1E * ESTKS.Xapp 2 c1C 0 ≠ c1E * ESTKS.Xret 2 (5 / 4) c1C 0 := by
  have hs3 : Real.sqrt 3 * Real.sqrt 3 = 3 := Real.mul_self_sqrt (by norm_num)
  have hs3ne : Real.sqrt 3 ≠ 0 := by positivity
  have hrho : ¬ ESTKS.rho (5 / 4) = 1 := by norm_num [ESTKS.rho]
  constructor
  · refine ⟨0, c1C, 0, 0, ?_, ?_, ?_, ?_, ?_, rfl, ?_⟩
    · simp
    · rw [c1C, Matrix.transpose_smul, Matrix.transpose_one]
    · show c1C * ESTKS.Ainv 2 1 (5 / 4) 0 0 * c1C = 1
      rw [ESTKS.Ainv, c1C]
      simp only [Matrix.transpose_zero, Matrix.zero_mul, Matrix.mul_zero,
        zero_add, Matrix.smul_mul, Matrix.mul_smul, Matrix.one_mul,
        Matrix.mul_one, smul_smul]
      rw [show ESTKS.rho (5 / 4) * (((2 : ℕ) : ℝ) - 1) = 3 / 4 by
        norm_num [ESTKS.rho]]
      rw [show (2 / Real.sqrt 3 * (3 / 4 * (2 / Real.sqrt 3))) = 1 by
        field_simp
        linarith [hs3]]
      rw [one_smul]
    · simp
    · simp [ESTKS.Ainv]
    · rw [if_neg hrho]
  · intro hcontra
    have h00 := congrFun (congrFun hcontra 0) 0
    have hsum1 : ∀ f : Fin (2 - 1) → ℝ, (∑ j, f j) = f 0 :=
      fun f => Fin.sum_univ_one f
    have hsum2 : ∀ f : Fin 2 → ℝ, (∑ j, f j) = f 0 + f 1 :=
      fun f => Fin.sum_univ_two f
    have hT00 : ESTKS.mT 2 0 0 = 1 - ESTKS.aCoef 2 := by
      rw [ESTKS.mT_apply]
      norm_num
    simp only [ESTKS.Xapp, ESTKS.Xret, ESTKS.Wmat, Matrix.mul_apply,
      Matrix.add_apply, Matrix.smul_apply, ones_apply, Matrix.one_apply,
      Matrix.transpose_apply, hsum1, hsum2, smul_eq_mul, Matrix.zero_mul,
      Matrix.zero_apply, c1C, c1E] at h00
    rw [hT00] at h00
    simp only [show ((2 : ℕ) : ℝ) - 1 = 1 by norm_num, Real.sqrt_one] at h00
    norm_num [Matrix.cons_val_zero, Matrix.cons_val_one, ESTKS.rho] at h00
    have ha1 : 0 < 1 - ESTKS.aCoef 2 := by linarith [aCoef_two_lt_one]
    rcases h00 with h00 | h00
    · linarith
    · linarith

/-! ## EnsembleKalmanSmoother orchestrator, global analysis mode
(src/src/DA/Algorithm/EnsembleKalmanSmoother.cpp)

The `EnKSVariant` is a virtual strategy object; the orchestrator is embedded
parametrically in the variant, represented by a function `trans` that maps
the (global) ensemble buffer and the fetched observation data to the pair
(updated ensemble, computed transform): `processGlobalEnsemble` followed by
`ensembleTransform`, which updates `E` in place and fills `X`.  A realized
run of the stochastic `EnKS` (with its noise sample fixed) or of `ESTKS` is
such a function.  Observation payloads (`z`, `H`, `R`) stay abstract in the
type `O`.  Time-step indices `k` are C++ `int`, modelled as `ℤ`. -/

/-- The fields of `EnsembleKalmanSmoother::Data` that the global-mode
analysis/smoother paths read or write (lines 52-99 of the source; the
localization fields live in `LocState` below). -/
structure SmootherState (K : Type) [LinearOrderedCommRing K] (n N : ℕ) where
  lag : ℕ
  covInflation : K
  smForgetFactor : K
  cache : MemoryArrayCache (Matrix (Fin n) (Fin N) K)
  ksSteps : List (ℤ × ℕ)
  upK : ℤ
  updateActive : Bool
  upHaveAssimilatedObs : Bool
  upE : Matrix (Fin n) (Fin N) K
  upX : Matrix (Fin N) (Fin N) K
  upHaveX : Bool

variable {K : Type} [LinearOrderedCommRing K] {n N : ℕ} {O : Type}

/-- `smootherApplyForgetFactor` (lines 482-498): `X = ((X - I)*f) + I`,
written entrywise, with an early-out for `f == 1`. -/
def smootherApplyForgetFactor (X : Matrix (Fin N) (Fin N) K) (f : K) :
    Matrix (Fin N) (Fin N) K :=
  if f = 1 then X
  else Matrix.of fun i j => if i = j then (X i j - 1) * f + 1 else X i j * f

theorem smootherApplyForgetFactor_eq (X : Matrix (Fin N) (Fin N) K) (f : K) :
    smootherApplyForgetFactor X f = f • (X - 1) + 1 := by
  rw [smootherApplyForgetFactor]
  by_cases hf : f = 1
  · rw [if_pos hf, hf, one_smul, sub_add_cancel]
  · rw [if_neg hf]
    funext i j
    show (if i = j then (X i j - 1) * f + 1 else X i j * f) = _
    rw [Matrix.add_apply, Matrix.smul_apply, Matrix.sub_apply, smul_eq_mul]
    by_cases hij : i = j
    · rw [if_pos hij, hij, Matrix.one_apply_eq]
      ring
    · rw [if_neg hij, Matrix.one_apply_ne hij]
      ring

/-- Iterating the forgetting-factor damping `m` times compounds it to
`(X - I)·f^m + I`. -/
theorem smootherApplyForgetFactor_iterate (f : K) (m : ℕ)
    (X : Matrix (Fin N) (Fin N) K) :
    (fun Y => smootherApplyForgetFactor Y f)^[m] X = f ^ m • (X - 1) + 1 := by
  induction m with
  | zero => simp
  | succ m ih =>
    rw [Function.iterate_succ_apply', ih, smootherApplyForgetFactor_eq]
    rw [add_sub_cancel_right, smul_smul, ← pow_succ']

/-- One iteration of the backward loop of `laggedSmoother` (lines 509-576) at
record index `j`, in global mode; the accumulator carries the cache, the
(damped-in-place) `upX` and the emitted results.  A `none` lookup corresponds
to `ENDAS_ASSERT(Ej)` firing and leaves the accumulator unchanged. -/
def lsIter (finishing upHaveX : Bool) (f : K) (lag : ℕ) (ks : List (ℤ × ℕ))
    (acc : MemoryArrayCache (Matrix (Fin n) (Fin N) K) ×
      Matrix (Fin N) (Fin N) K × List (ℤ × Matrix (Fin n) (Fin N) K))
    (j : ℕ) :
    MemoryArrayCache (Matrix (Fin n) (Fin N) K) ×
      Matrix (Fin N) (Fin N) K × List (ℤ × Matrix (Fin n) (Fin N) K) :=
  match ks.get? j with
  | none => acc
  | some jdata =>
    match acc.1.get jdata.2 with
    | none => acc
    | some Ej =>
      let jIsResult := ((j : ℤ) = (ks.length : ℤ) - (lag : ℤ)) || finishing
      let active := !finishing && upHaveX
      let upX1 := if active then smootherApplyForgetFactor acc.2.1 f else acc.2.1
      let Ej1 := if active then Ej * upX1 else Ej
      let cache1 := if active then acc.1.update jdata.2 Ej1 else acc.1
      if jIsResult then (cache1.remove jdata.2, upX1, acc.2.2 ++ [(jdata.1, Ej1)])
      else (cache1, upX1, acc.2.2)

/-- The visited record indices of the backward loop
`for (j = kend-1; j != kend-1-lag; j--) { if (j < 0) break; ... }`:
`kend-1, kend-2, …`, `min lag kend` of them. -/
def lsIndices (lag kend : ℕ) : List ℕ :=
  (List.range (min lag kend)).map (fun t => kend - 1 - t)

/-- `EnsembleKalmanSmoother::Data::laggedSmoother` (lines 502-578), global
analysis mode: returns the new state and the results passed to `onresult`,
in emission order. -/
def laggedSmoother (s : SmootherState K n N) (finishing : Bool) :
    SmootherState K n N × List (ℤ × Matrix (Fin n) (Fin N) K) :=
  if s.ksSteps.length = 0 then (s, [])
  else
    let r := (lsIndices s.lag s.ksSteps.length).foldl
      (lsIter finishing s.upHaveX s.smForgetFactor s.lag s.ksSteps)
      (s.cache, s.upX, [])
    ({ s with cache := r.1, upX := r.2.1 }, r.2.2)

/-- `beginSmoother` (lines 273-295), global mode: reset the step deque and
seed it with a cache snapshot of `E0` (no-op when `lag = 0`). -/
def beginSmoother (s : SmootherState K n N) (E0 : Matrix (Fin n) (Fin N) K)
    (k0 : ℤ) : SmootherState K n N :=
  if s.lag = 0 then s
  else
    { s with ksSteps := [(k0, (s.cache.put E0).1)], cache := (s.cache.put E0).2 }

/-- `beginAnalysis` (lines 299-327), global mode.  `inflateFn` is the
variant's `applyCovInflation`.  (`upX.resize(N, N)` keeps the existing
buffer for an N×N-to-N×N resize, so `upX` is not written here; it is
meaningful only once `upHaveX` is set.) -/
def beginAnalysis (inflateFn : Matrix (Fin n) (Fin N) K → K → ℤ → Matrix (Fin n) (Fin N) K)
    (s : SmootherState K n N) (E : Matrix (Fin n) (Fin N) K) (k : ℤ) :
    SmootherState K n N :=
  { s with
    upK := k,
    upE := if s.covInflation ≠ 1 then inflateFn E s.covInflation k else E,
    upHaveX := false, upHaveAssimilatedObs := false, updateActive := true }

/-- `EnsembleKalmanSmoother::Data::assimilateOne` (lines 394-432) in global
mode, where `E`, `Eg` alias the live ensemble `upE`, `X` is `upX` and
`haveX` is `upHaveX`: compute the transform (the variant also updates the
ensemble in place), compose it onto an existing transform rather than
overwriting, and keep it only when a smoother needs it (`lag > 0`). -/
def assimilateOne
    (trans : Matrix (Fin n) (Fin N) K → O → Matrix (Fin n) (Fin N) K × Matrix (Fin N) (Fin N) K)
    (s : SmootherState K n N) (odata : O) : SmootherState K n N :=
  { s with
    upE := (trans s.upE odata).1,
    upX := if s.upHaveX then s.upX * (trans s.upE odata).2 else (trans s.upE odata).2,
    upHaveX := s.upHaveX || decide (0 < s.lag),
    upHaveAssimilatedObs := true }

/-- `assimilate` (lines 331-391), global branch: a single fetch; empty
observation data (`odata.empty()`, i.e. a zero-sized `z`) means no
assimilation happens at all. -/
def assimilate
    (trans : Matrix (Fin n) (Fin N) K → O → Matrix (Fin n) (Fin N) K × Matrix (Fin N) (Fin N) K)
    (s : SmootherState K n N) (odata : Option O) : SmootherState K n N :=
  match odata with
  | none => s
  | some o => assimilateOne trans s o

/-- `endAnalysis` (lines 435-467), global mode: run the lagged smoother with
`finishing = false`, then either emit the filter result (`lag = 0`) or push a
new cache snapshot and deque record. -/
def endAnalysis (s : SmootherState K n N) :
    SmootherState K n N × List (ℤ × Matrix (Fin n) (Fin N) K) :=
  let r := laggedSmoother s false
  if r.1.lag = 0 then
    ({ r.1 with updateActive := false }, r.2 ++ [(r.1.upK, r.1.upE)])
  else
    ({ r.1 with
        cache := (r.1.cache.put r.1.upE).2,
        ksSteps := r.1.ksSteps ++ [(r.1.upK, (r.1.cache.put r.1.upE).1)],
        updateActive := false }, r.2)

/-- `endSmoother` (lines 471-478): flush the smoother with
`finishing = true` (no-op when `lag = 0`). -/
def endSmoother (s : SmootherState K n N) :
    SmootherState K n N × List (ℤ × Matrix (Fin n) (Fin N) K) :=
  if s.lag = 0 then (s, [])
  else laggedSmoother s true

/-- The state right after the constructor (lines 144-157): counter-empty
cache, inflation 1, forgetting factor `f`, no active update.  `upX` is an
uninitialized buffer; we pick the identity. -/
def initialState (lag : ℕ) (f : K) (E0 : Matrix (Fin n) (Fin N) K) :
    SmootherState K n N :=
  { lag := lag, covInflation := 1, smForgetFactor := f,
    cache := MemoryArrayCache.emptyCache, ksSteps := [], upK := 0,
    updateActive := false, upHaveAssimilatedObs := false,
    upE := E0, upX := 1, upHaveX := false }

/-- One forecast/analysis cycle in a driver loop: `beginAnalysis` on the live
ensemble buffer, one `assimilate` call per observation manager in `calls`,
then `endAnalysis`. -/
def runAnalysisStep
    (inflateFn : Matrix (Fin n) (Fin N) K → K → ℤ → Matrix (Fin n) (Fin N) K)
    (trans : Matrix (Fin n) (Fin N) K → O → Matrix (Fin n) (Fin N) K × Matrix (Fin N) (Fin N) K)
    (s : SmootherState K n N) (k : ℤ) (calls : List (Option O)) :
    SmootherState K n N × List (ℤ × Matrix (Fin n) (Fin N) K) :=
  endAnalysis (calls.foldl (assimilate trans) (beginAnalysis inflateFn s s.upE k))

/-- A full driver run without the final `endSmoother`: `beginSmoother` on
`E0` at step `k0`, then the given analysis steps (step index plus the list
of `assimilate` calls), collecting all results emitted so far. -/
def runSteps
    (inflateFn : Matrix (Fin n) (Fin N) K → K → ℤ → Matrix (Fin n) (Fin N) K)
    (trans : Matrix (Fin n) (Fin N) K → O → Matrix (Fin n) (Fin N) K × Matrix (Fin N) (Fin N) K)
    (lag : ℕ) (f : K) (E0 : Matrix (Fin n) (Fin N) K) (k0 : ℤ)
    (steps : List (ℤ × List (Option O))) :
    SmootherState K n N × List (ℤ × Matrix (Fin n) (Fin N) K) :=
  steps.foldl
    (fun acc st =>
      ((runAnalysisStep inflateFn trans acc.1 st.1 st.2).1,
        acc.2 ++ (runAnalysisStep inflateFn trans acc.1 st.1 st.2).2))
    (beginSmoother (initialState lag f E0) E0 k0, [])

/-- C3: whenever `assimilateOne` runs with a transform already accumulated
(`haveX` true), the stored transform becomes the product `X_old · X_new`
(composed, not overwritten); consequently two sequential observation batches
starting from a fresh analysis bracket with `lag > 0` accumulate
`X = X1 · X2`. -/
theorem claimC3
    (trans : Matrix (Fin n) (Fin N) K → O → Matrix (Fin n) (Fin N) K × Matrix (Fin N) (Fin N) K)
    (s t : SmootherState K n N) (o o1 o2 : O)
    (hs : s.upHaveX = true) (ht : t.upHaveX = false) (hlag : 0 < t.lag) :
    (assimilateOne trans s o).upX = s.upX * (trans s.upE o).2 ∧
    (assimilateOne trans (assimilateOne trans t o1) o2).upX =
      (trans t.upE o1).2 * (trans (assimilateOne trans t o1).upE o2).2 := by
  constructor
  · rw [assimilateOne]
    simp [hs]
  · rw [assimilateOne, assimilateOne]
    simp [ht, hlag]

/-- A concrete mid-analysis state over ℤ with an accumulated transform. -/
def c3state : SmootherState ℤ 1 1 :=
  { lag := 1, covInflation := 1, smForgetFactor := 1,
    cache := MemoryArrayCache.emptyCache, ksSteps := [], upK := 0,
    updateActive := true, upHaveAssimilatedObs := false,
    upE := !![2], upX := !![3], upHaveX := true }

/-- A concrete freshly opened analysis bracket over ℤ (`haveX` false). -/
def c3fresh : SmootherState ℤ 1 1 :=
  { lag := 1, covInflation := 1, smForgetFactor := 1,
    cache := MemoryArrayCache.emptyCache, ksSteps := [], upK := 0,
    updateActive := true, upHaveAssimilatedObs := false,
    upE := !![2], upX := 1, upHaveX := false }

/-- C3 witness: a concrete two-batch assimilation over ℤ. -/
theorem claimC3_witness :
    ((assimilateOne (fun E _ => (E, E)) c3state (0 : ℤ)).upX =
      c3state.upX * c3state.upE ∧
    (assimilateOne (fun E _ => (E, E))
        (assimilateOne (fun E _ => (E, E)) c3fresh (0 : ℤ)) (0 : ℤ)).upX =
      c3fresh.upE *
        (assimilateOne (fun E _ => (E, E)) c3fresh (0 : ℤ)).upE) :=
  claimC3 (fun E _ => (E, E)) c3state c3fresh 0 0 0 rfl rfl (by decide)

/-! ## Localized analysis mode (claim C4)

In localized mode the orchestrator stages per-domain slices of the state in
the augmented buffer `locEaug` (a `locTotalStateSize × N` array with row
offsets `locStateLimits`); we represent that buffer by its per-domain blocks,
indexed by the domain id.  The `DomainPartitioning` strategy object is a
parameter, holding `numLocalDomains`, `getLocalSize`, `getLocal` and
`putLocal`. -/

/-- The `DomainPartitioning` contract
(include/Endas/DA/DomainPartitioning.hpp). -/
structure Partition (K : Type u) (n N : ℕ) where
  D : ℕ
  sizes : Fin D → ℕ
  getLocal : (d : Fin D) → Matrix (Fin n) (Fin N) K →
    Matrix (Fin (sizes d)) (Fin N) K
  putLocal : (d : Fin D) → Matrix (Fin (sizes d)) (Fin N) K →
    Matrix (Fin n) (Fin N) K → Matrix (Fin n) (Fin N) K

/-- `Data::packEnsemble` (lines 256-270): write every nonempty domain's
staged block back into the global ensemble (`foreachNonemptyDomain` skips
size-0 domains). -/
def Partition.pack {K : Type u} {n N : ℕ} (P : Partition K n N)
    (aug : (d : Fin P.D) → Matrix (Fin (P.sizes d)) (Fin N) K)
    (E : Matrix (Fin n) (Fin N) K) : Matrix (Fin n) (Fin N) K :=
  (List.finRange P.D).foldl
    (fun E d => if 0 < P.sizes d then P.putLocal d (aug d) E else E) E

/-- `Data::unpackEnsemble` (lines 241-254): stage every domain's block.
(Size-0 domains contribute empty blocks either way.) -/
def Partition.unpack {K : Type u} {n N : ℕ} (P : Partition K n N)
    (E : Matrix (Fin n) (Fin N) K) :
    (d : Fin P.D) → Matrix (Fin (P.sizes d)) (Fin N) K :=
  fun d => P.getLocal d E

/-- `GenericDomain` as a `Partition`: `n` domains of local size 1, domain
`d` = state row `d`. -/
def genericPartition (K : Type) (n N : ℕ) : Partition K n N :=
  { D := n, sizes := fun _ => 1,
    getLocal := fun d E => GenericDomain.getLocal d E,
    putLocal := fun d Xl E => GenericDomain.putLocal d Xl E }

/-- The localization fields of `EnsembleKalmanSmoother::Data` touched by a
localized `assimilate` call (lines 75-97): the live ensemble buffer, the
augmented per-domain blocks, the per-domain transforms `locX` with their
`locHaveX` flags, and the staleness flag `upHaveAssimilatedObs`. -/
structure LocState (K : Type) (n N : ℕ) (P : Partition K n N) where
  lag : ℕ
  upE : Matrix (Fin n) (Fin N) K
  locEaug : (d : Fin P.D) → Matrix (Fin (P.sizes d)) (Fin N) K
  locX : Fin P.D → Matrix (Fin N) (Fin N) K
  locHaveX : Fin P.D → Bool
  upHaveAssimilatedObs : Bool

/-- One fetch result of an `ObservationManager` in localized mode
(`ObservationData`): a domain id, the observed values `z` (`empty()` is
`z.size() == 0`), and the `H`/`R` operator payload, abstracted as `O`. -/
structure ObsData (K : Type) (D : ℕ) (O : Type u) where
  domain : Fin D
  z : List K
  payload : O

/-- `assimilateOne` (lines 394-432) against a local domain slice: the
variant's transform (`trans`, taking the global ensemble `Eg`, the staged
local block, `z` and the operator payload) updates the block in place and
yields the local `X`, which is composed onto an already-accumulated local
transform rather than overwriting it. -/
def assimilateOneLoc {P : Partition K n N}
    (trans : (sz : ℕ) → Matrix (Fin n) (Fin N) K → Matrix (Fin sz) (Fin N) K →
      List K → O → Matrix (Fin sz) (Fin N) K × Matrix (Fin N) (Fin N) K)
    (Eg : Matrix (Fin n) (Fin N) K) (st : LocState K n N P)
    (o : ObsData K P.D O) : LocState K n N P :=
  { st with
    locEaug := Function.update st.locEaug o.domain
      (trans (P.sizes o.domain) Eg (st.locEaug o.domain) o.z o.payload).1,
    locX := Function.update st.locX o.domain
      (if st.locHaveX o.domain then
        st.locX o.domain *
          (trans (P.sizes o.domain) Eg (st.locEaug o.domain) o.z o.payload).2
      else (trans (P.sizes o.domain) Eg (st.locEaug o.domain) o.z o.payload).2),
    locHaveX := Function.update st.locHaveX o.domain
      (st.locHaveX o.domain || decide (0 < st.lag)),
    upHaveAssimilatedObs := true }

/-- `assimilate` (lines 331-391), localized branch: if a previous batch in
this analysis bracket already mutated the local buffers, first repack the
augmented buffer into the global ensemble (so `processGlobalEnsemble` sees an
up-to-date `H(E)`); then fetch until the empty sentinel, dispatching each
non-empty `ObservationData` to its domain.  `fetches` is the sequence of
fetch results the manager would produce; the processed prefix stops at the
first empty one. -/
def assimilateLoc {P : Partition K n N}
    (trans : (sz : ℕ) → Matrix (Fin n) (Fin N) K → Matrix (Fin sz) (Fin N) K →
      List K → O → Matrix (Fin sz) (Fin N) K × Matrix (Fin N) (Fin N) K)
    (s : LocState K n N P) (fetches : List (ObsData K P.D O)) :
    LocState K n N P :=
  let s1 := if s.upHaveAssimilatedObs
    then { s with upE := P.pack s.locEaug s.upE } else s
  (fetches.takeWhile (fun o => !o.z.isEmpty)).foldl
    (fun st o => assimilateOneLoc trans s1.upE st o) s1

/-- C4 (amended): an `assimilate` call whose observation manager returns only
empty observation data never invokes `ensembleTransform` (every dispatched
batch has a non-empty `z`), and leaves the accumulated transforms, the
`haveX` flags and the (augmented) ensemble untouched.  In global mode the
call is a complete no-op; in localized mode its only effect is that, when a
previous batch in the same analysis bracket was assimilated, the augmented
buffer is first repacked into the global ensemble buffer `upE` (which can
change `upE`). -/
theorem claimC4 {P : Partition K n N}
    (transG : Matrix (Fin n) (Fin N) K → O →
      Matrix (Fin n) (Fin N) K × Matrix (Fin N) (Fin N) K)
    (trans : (sz : ℕ) → Matrix (Fin n) (Fin N) K → Matrix (Fin sz) (Fin N) K →
      List K → O → Matrix (Fin sz) (Fin N) K × Matrix (Fin N) (Fin N) K)
    (s : SmootherState K n N) (t : LocState K n N P)
    (fetches : List (ObsData K P.D O))
    (hempty : fetches.takeWhile (fun o => !o.z.isEmpty) = []) :
    assimilate transG s none = s ∧
    assimilateLoc trans t fetches =
      (if t.upHaveAssimilatedObs
        then { t with upE := P.pack t.locEaug t.upE } else t) ∧
    (∀ (gs : List (ObsData K P.D O)) (o : ObsData K P.D O),
      o ∈ gs.takeWhile (fun o => !o.z.isEmpty) → o.z ≠ []) := by
  refine ⟨rfl, ?_, ?_⟩
  · rw [assimilateLoc, hempty]
    rfl
  · intro gs o hmem
    have := List.mem_takeWhile_imp hmem
    simpa [List.isEmpty_iff] using this

/-- A concrete toy variant for the C4 runs: right-multiply the local block
by `2·I` and report `X = 2·I` (any `EnKSVariant::ensembleTransform` has this
shape: it updates `E` in place and fills `X`). -/
def c4trans : (sz : ℕ) → Matrix (Fin 2) (Fin 2) ℤ →
    Matrix (Fin sz) (Fin 2) ℤ → List ℤ → Unit →
    Matrix (Fin sz) (Fin 2) ℤ × Matrix (Fin 2) (Fin 2) ℤ :=
  fun _ _ Ed _ _ =>
    (Ed * ((2 : ℤ) • (1 : Matrix (Fin 2) (Fin 2) ℤ)),
      (2 : ℤ) • (1 : Matrix (Fin 2) (Fin 2) ℤ))

/-- A concrete global-mode mid-analysis state over ℤ. -/
def c4sG : SmootherState ℤ 2 2 :=
  { lag := 1, covInflation := 1, smForgetFactor := 1,
    cache := MemoryArrayCache.emptyCache, ksSteps := [], upK := 0,
    updateActive := true, upHaveAssimilatedObs := false,
    upE := 1, upX := 1, upHaveX := false }

/-- A concrete localized mid-analysis state over ℤ (two `GenericDomain`
domains, ensemble `I₂` freshly unpacked). -/
def c4t : LocState ℤ 2 2 (genericPartition ℤ 2 2) :=
  { lag := 1, upE := 1, locEaug := (genericPartition ℤ 2 2).unpack 1,
    locX := fun _ => 1, locHaveX := fun _ => false,
    upHaveAssimilatedObs := false }

/-- C4 witness: a concrete empty-manager `assimilate` call in both modes. -/
theorem claimC4_witness :
    assimilate (fun (E : Matrix (Fin 2) (Fin 2) ℤ) (_ : Unit) => (E, 1))
      c4sG none = c4sG ∧
    assimilateLoc c4trans c4t ([⟨0, [], ()⟩] : List (ObsData ℤ 2 Unit)) =
      (if c4t.upHaveAssimilatedObs
        then { c4t with upE := (genericPartition ℤ 2 2).pack c4t.locEaug c4t.upE }
        else c4t) ∧
    (∀ (gs : List (ObsData ℤ 2 Unit)) (o : ObsData ℤ 2 Unit),
      o ∈ gs.takeWhile (fun o => !o.z.isEmpty) → o.z ≠ []) :=
  claimC4 (fun E _ => (E, 1)) c4trans c4sG c4t ([⟨0, [], ()⟩] : List (ObsData ℤ 2 Unit)) rfl

/-- C4 (counterexample): in localized mode the claim as stated fails — after
a first `assimilate` call with observations for domain 0, a second
`assimilate` call whose manager returns only an empty `ObservationData`
still changes the ensemble buffer: it repacks the staged (already-updated)
local blocks into the global ensemble `upE`. -/
theorem claimC4_counterexample :
    (⟨0, [], ()⟩ : ObsData ℤ 2 Unit).z.isEmpty = true ∧
    (assimilateLoc c4trans
        (assimilateLoc c4trans c4t ([⟨0, [5], ()⟩] : List (ObsData ℤ 2 Unit)))
        ([⟨0, [], ()⟩] : List (ObsData ℤ 2 Unit))).upE ≠
      (assimilateLoc c4trans c4t ([⟨0, [5], ()⟩] : List (ObsData ℤ 2 Unit))).upE := by
  constructor
  · rfl
  · decide

/-! ## Properties of the lagged-smoother backward loop (claims C2 and C10) -/

section LaggedSmootherLemmas

variable (f : K) (hXb : Bool) (lag : ℕ) (ks : List (ℤ × ℕ))

/-- Record-key distinctness between two visited indices, as induced by the
nodup handle invariant. -/
def RecKeyNe (j j' : ℕ) : Prop :=
  ∀ r r' : ℤ × ℕ, ks.get? j = some r → ks.get? j' = some r' → r.2 ≠ r'.2

/-- Reduction of one loop iteration when the record and its cache entry
resolve. -/
theorem lsIter_step (finishing : Bool)
    (acc : MemoryArrayCache (Matrix (Fin n) (Fin N) K) ×
      Matrix (Fin N) (Fin N) K × List (ℤ × Matrix (Fin n) (Fin N) K))
    (j : ℕ) (jd : ℤ × ℕ) (Ej : Matrix (Fin n) (Fin N) K)
    (hks : ks.get? j = some jd) (hcg : acc.1.get jd.2 = some Ej) :
    lsIter finishing hXb f lag ks acc j =
      (if (decide ((j : ℤ) = (ks.length : ℤ) - (lag : ℤ)) || finishing) = true
       then ((if (!finishing && hXb) = true
          then acc.1.update jd.2
            (Ej * smootherApplyForgetFactor acc.2.1 f) else acc.1).remove jd.2,
         (if (!finishing && hXb) = true
          then smootherApplyForgetFactor acc.2.1 f else acc.2.1),
         acc.2.2 ++ [(jd.1, (if (!finishing && hXb) = true
          then Ej * smootherApplyForgetFactor acc.2.1 f else Ej))])
       else ((if (!finishing && hXb) = true
          then acc.1.update jd.2
            (Ej * smootherApplyForgetFactor acc.2.1 f) else acc.1),
         (if (!finishing && hXb) = true
          then smootherApplyForgetFactor acc.2.1 f else acc.2.1),
         acc.2.2)) := by
  simp only [lsIter, hks, hcg]
  by_cases hact : (!finishing && hXb) = true <;> simp [hact]

/-- The loop only appends to the emission list. -/
theorem lsIter_ems_mono (finishing : Bool)
    (acc : MemoryArrayCache (Matrix (Fin n) (Fin N) K) ×
      Matrix (Fin N) (Fin N) K × List (ℤ × Matrix (Fin n) (Fin N) K))
    (j : ℕ) :
    ∃ tail, (lsIter finishing hXb f lag ks acc j).2.2 = acc.2.2 ++ tail := by
  rcases hks : ks.get? j with _ | jd
  · exact ⟨[], by simp only [lsIter, hks]; simp⟩
  · rcases hcg : acc.1.get jd.2 with _ | Ej
    · exact ⟨[], by simp only [lsIter, hks, hcg]; simp⟩
    · rw [lsIter_step f hXb lag ks finishing acc j jd Ej hks hcg]
      by_cases hres : (decide ((j : ℤ) = (ks.length : ℤ) - (lag : ℤ)) || finishing) = true
      · exact ⟨[(jd.1, (if (!finishing && hXb) = true
          then Ej * smootherApplyForgetFactor acc.2.1 f else Ej))],
          by rw [if_pos hres]⟩
      · exact ⟨[], by rw [if_neg hres]; simp⟩

/-- A fold of loop iterations only appends to the emission list. -/
theorem lsFold_ems_mono (finishing : Bool) (js : List ℕ) :
    ∀ (acc : MemoryArrayCache (Matrix (Fin n) (Fin N) K) ×
      Matrix (Fin N) (Fin N) K × List (ℤ × Matrix (Fin n) (Fin N) K)),
    ∃ tail, (js.foldl (lsIter finishing hXb f lag ks) acc).2.2 = acc.2.2 ++ tail := by
  induction js with
  | nil => intro acc; exact ⟨[], by simp⟩
  | cons j js ih =>
    intro acc
    obtain ⟨t1, h1⟩ := lsIter_ems_mono f hXb lag ks finishing acc j
    obtain ⟨t2, h2⟩ := ih (lsIter finishing hXb f lag ks acc j)
    exact ⟨t1 ++ t2, by rw [List.foldl_cons, h2, h1, List.append_assoc]⟩

/-- Handles not belonging to any visited record are untouched by one
iteration. -/
theorem lsIter_get_untouched (finishing : Bool)
    (acc : MemoryArrayCache (Matrix (Fin n) (Fin N) K) ×
      Matrix (Fin N) (Fin N) K × List (ℤ × Matrix (Fin n) (Fin N) K))
    (j : ℕ) (h : ℕ)
    (hj : ∀ r : ℤ × ℕ, ks.get? j = some r → r.2 ≠ h) :
    (lsIter finishing hXb f lag ks acc j).1.get h = acc.1.get h := by
  rcases hks : ks.get? j with _ | jd
  · simp only [lsIter, hks]
  · rcases hcg : acc.1.get jd.2 with _ | Ej
    · simp only [lsIter, hks, hcg]
    · have hne : h ≠ jd.2 := fun hc => hj jd hks (hc ▸ rfl)
      rw [lsIter_step f hXb lag ks finishing acc j jd Ej hks hcg]
      by_cases hres : (decide ((j : ℤ) = (ks.length : ℤ) - (lag : ℤ)) || finishing) = true
      · rw [if_pos hres]
        show ((if _ then _ else _ : MemoryArrayCache _).remove jd.2).get h = _
        rw [MemoryArrayCache.get_remove_ne _ _ _ hne]
        by_cases hact : (!finishing && hXb) = true
        · rw [if_pos hact, MemoryArrayCache.get_update_ne _ _ _ _ hne]
        · rw [if_neg hact]
      · rw [if_neg hres]
        show (if _ then _ else _ : MemoryArrayCache _).get h = _
        by_cases hact : (!finishing && hXb) = true
        · rw [if_pos hact, MemoryArrayCache.get_update_ne _ _ _ _ hne]
        · rw [if_neg hact]

/-- Handles not belonging to any visited record are untouched by the whole
backward pass. -/
theorem lsFold_get_untouched (finishing : Bool) (js : List ℕ) :
    ∀ (acc : MemoryArrayCache (Matrix (Fin n) (Fin N) K) ×
      Matrix (Fin N) (Fin N) K × List (ℤ × Matrix (Fin n) (Fin N) K))
    (h : ℕ),
    (∀ j ∈ js, ∀ r : ℤ × ℕ, ks.get? j = some r → r.2 ≠ h) →
    (js.foldl (lsIter finishing hXb f lag ks) acc).1.get h = acc.1.get h := by
  induction js with
  | nil => intro acc h _; rfl
  | cons j js ih =>
    intro acc h hj
    rw [List.foldl_cons,
      ih (lsIter finishing hXb f lag ks acc j) h
        (fun j' hj' => hj j' (List.mem_cons_of_mem _ hj')),
      lsIter_get_untouched f hXb lag ks finishing acc j h
        (hj j (List.mem_cons_self _ _))]

/-- Finishing pass (`endSmoother`): every visited record with a live, unique
handle is emitted, in visit order, carrying its cached value unchanged. -/
theorem lsFold_finishing_spec :
    ∀ (js : List ℕ) (cache : MemoryArrayCache (Matrix (Fin n) (Fin N) K))
      (X : Matrix (Fin N) (Fin N) K) (ems : List (ℤ × Matrix (Fin n) (Fin N) K)),
    (∀ j ∈ js, ∃ (r : ℤ × ℕ) (Ej : Matrix (Fin n) (Fin N) K),
      ks.get? j = some r ∧ cache.get r.2 = some Ej) →
    List.Pairwise (RecKeyNe ks) js →
    ((js.foldl (lsIter true hXb f lag ks) (cache, X, ems)).2.2).map Prod.fst
      = ems.map Prod.fst ++ js.map (fun j => ((ks.get? j).getD (0, 0)).1) := by
  intro js
  induction js with
  | nil => intro cache X ems _ _; simp
  | cons j js ih =>
    intro cache X ems hlive hpw
    obtain ⟨r, Ej, hks, hcg⟩ := hlive j (List.mem_cons_self _ _)
    have hstep : lsIter true hXb f lag ks (cache, X, ems) j =
        (cache.remove r.2, X, ems ++ [(r.1, Ej)]) := by
      rw [lsIter_step f hXb lag ks true (cache, X, ems) j r Ej hks hcg]
      simp
    have hpw' := List.pairwise_cons.mp hpw
    rw [List.foldl_cons, hstep,
      ih (cache.remove r.2) X (ems ++ [(r.1, Ej)]) ?_ hpw'.2]
    · have hks' : ks[j]? = some r := by
        rw [← List.get?_eq_getElem?]; exact hks
      simp [hks, hks']
    · intro j' hj'
      obtain ⟨r', Ej', hks', hcg'⟩ := hlive j' (List.mem_cons_of_mem _ hj')
      exact ⟨r', Ej', hks', by
        rw [MemoryArrayCache.get_remove_ne _ _ _
          (hpw'.1 j' hj' r r' hks hks').symm]
        exact hcg'⟩

/-- Non-finishing pass (`endAnalysis`): the record visited `t+1`-th (i.e.
`t+1` steps behind the current analysis) is multiplied by the `t+1`-fold
damped transform; it is then either emitted and evicted (when it falls out of
the lag window) or kept in the cache. -/
theorem lsFold_value_spec :
    ∀ (js : List ℕ) (cache : MemoryArrayCache (Matrix (Fin n) (Fin N) K))
      (X : Matrix (Fin N) (Fin N) K) (ems : List (ℤ × Matrix (Fin n) (Fin N) K))
      (t : ℕ) (ht : t < js.length),
    (∀ j ∈ js, ∃ (r : ℤ × ℕ) (Ej : Matrix (Fin n) (Fin N) K),
      ks.get? j = some r ∧ cache.get r.2 = some Ej) →
    List.Pairwise (RecKeyNe ks) js →
    ∀ (r : ℤ × ℕ) (Et : Matrix (Fin n) (Fin N) K),
      ks.get? (js.get ⟨t, ht⟩) = some r → cache.get r.2 = some Et →
    (((js.get ⟨t, ht⟩ : ℕ) : ℤ) = (ks.length : ℤ) - (lag : ℤ) →
      (js.foldl (lsIter false hXb f lag ks) (cache, X, ems)).1.get r.2 = none ∧
      (r.1, if hXb = true
          then Et * (fun Y => smootherApplyForgetFactor Y f)^[t + 1] X else Et)
        ∈ (js.foldl (lsIter false hXb f lag ks) (cache, X, ems)).2.2) ∧
    (¬ (((js.get ⟨t, ht⟩ : ℕ) : ℤ) = (ks.length : ℤ) - (lag : ℤ)) →
      (js.foldl (lsIter false hXb f lag ks) (cache, X, ems)).1.get r.2
        = some (if hXb = true
          then Et * (fun Y => smootherApplyForgetFactor Y f)^[t + 1] X else Et)) := by
  intro js
  induction js with
  | nil => intro cache X ems t ht; exact absurd ht (by simp)
  | cons j js ih =>
    intro cache X ems t ht hlive hpw r Et hr hEt
    have hpw' := List.pairwise_cons.mp hpw
    cases t with
    | zero =>
      have hjr : ks.get? j = some r := hr
      have hstep := lsIter_step f hXb lag ks false (cache, X, ems) j r Et hjr hEt
      simp only [Bool.not_false, Bool.true_and] at hstep
      have huntouched : ∀ (c1 : MemoryArrayCache (Matrix (Fin n) (Fin N) K))
          (X1 : Matrix (Fin N) (Fin N) K)
          (e1 : List (ℤ × Matrix (Fin n) (Fin N) K)),
          (js.foldl (lsIter false hXb f lag ks) (c1, X1, e1)).1.get r.2
            = c1.get r.2 := by
        intro c1 X1 e1
        exact lsFold_get_untouched f hXb lag ks false js (c1, X1, e1) r.2
          (fun j' hj' r' hr' => (hpw'.1 j' hj' r r' hjr hr').symm)
      constructor
      · intro hres
        have hres' : (j : ℤ) = (ks.length : ℤ) - (lag : ℤ) := hres
        rw [List.foldl_cons, hstep, if_pos (by simp [hres'])]
        constructor
        · rw [huntouched]
          exact MemoryArrayCache.get_remove_self _ _
        · obtain ⟨tail, htail⟩ := lsFold_ems_mono f hXb lag ks false js _
          rw [htail]
          by_cases hact : hXb = true <;>
            simp [hact, Function.iterate_one, List.mem_append]
      · intro hres
        have hres' : ¬ (j : ℤ) = (ks.length : ℤ) - (lag : ℤ) := hres
        rw [List.foldl_cons, hstep, if_neg (by simp [hres'])]
        rw [huntouched]
        by_cases hact : hXb = true
        · rw [if_pos hact, if_pos hact,
            MemoryArrayCache.get_update_self cache r.2 Et _ hEt,
            Function.iterate_one]
        · rw [if_neg hact, if_neg hact]
          exact hEt
    | succ t' =>
      have htj : js.get ⟨t', Nat.lt_of_succ_lt_succ ht⟩ ∈ js := List.get_mem _ _ _
      have hr' : ks.get? (js.get ⟨t', Nat.lt_of_succ_lt_succ ht⟩) = some r := hr
      obtain ⟨rj, Ejh, hksj, hcgj⟩ := hlive j (List.mem_cons_self _ _)
      have hstep := lsIter_step f hXb lag ks false (cache, X, ems) j rj Ejh hksj hcgj
      simp only [Bool.not_false, Bool.true_and] at hstep
      have hrne : r.2 ≠ rj.2 := (hpw'.1 _ htj rj r hksj hr').symm
      -- the head handle differs from the target handle, so the target's
      -- cache entry survives the head iteration
      have hc1get : ∀ (b : Matrix (Fin n) (Fin N) K),
          ((if hXb = true then cache.update rj.2 b else cache)).get r.2
            = some Et := by
        intro b
        by_cases hact : hXb = true
        · rw [if_pos hact, MemoryArrayCache.get_update_ne _ _ _ _ hrne]
          exact hEt
        · rw [if_neg hact]; exact hEt
      have hc1get' : ∀ (b : Matrix (Fin n) (Fin N) K),
          ((if hXb = true then cache.update rj.2 b else cache).remove rj.2).get r.2
            = some Et := by
        intro b
        rw [MemoryArrayCache.get_remove_ne _ _ _ hrne]
        exact hc1get b
      have hlive' : ∀ (c1 : MemoryArrayCache (Matrix (Fin n) (Fin N) K)),
          (∀ h', c1.get h' = cache.get h' ∨
            (∃ b, c1.get h' = ((if hXb = true then cache.update rj.2 b
              else cache)).get h')) → True := fun _ _ => trivial
      -- new accumulator components after the head iteration
      by_cases hres : ((j : ℤ) = (ks.length : ℤ) - (lag : ℤ))
      · -- head record is the lag-window result: it is removed
        rw [List.foldl_cons, hstep, if_pos (by simp [hres])]
        have hlive2 : ∀ j' ∈ js, ∃ (r' : ℤ × ℕ) (Ej' : Matrix (Fin n) (Fin N) K),
            ks.get? j' = some r' ∧
            (((if hXb = true then cache.update rj.2
                (Ejh * smootherApplyForgetFactor X f) else cache)).remove rj.2).get r'.2
              = some Ej' := by
          intro j' hj'
          obtain ⟨r', Ej', hks', hcg'⟩ := hlive j' (List.mem_cons_of_mem _ hj')
          have hne' : r'.2 ≠ rj.2 := (hpw'.1 j' hj' rj r' hksj hks').symm
          refine ⟨r', Ej', hks', ?_⟩
          rw [MemoryArrayCache.get_remove_ne _ _ _ hne']
          by_cases hact : hXb = true
          · rw [if_pos hact, MemoryArrayCache.get_update_ne _ _ _ _ hne']
            exact hcg'
          · rw [if_neg hact]; exact hcg'
        have := ih ((if hXb = true then cache.update rj.2
            (Ejh * smootherApplyForgetFactor X f) else cache).remove rj.2)
          (if hXb = true then smootherApplyForgetFactor X f else X)
          (ems ++ [(rj.1, if hXb = true
            then Ejh * smootherApplyForgetFactor X f else Ejh)])
          t' (Nat.lt_of_succ_lt_succ ht) hlive2 hpw'.2 r Et hr' (hc1get' _)
        -- rewrite the damped base transform into one more iterate
        by_cases hact : hXb = true
        · simpa [hact, Function.iterate_succ_apply] using this
        · simpa [hact] using this
      · rw [List.foldl_cons, hstep, if_neg (by simp [hres])]
        have hlive2 : ∀ j' ∈ js, ∃ (r' : ℤ × ℕ) (Ej' : Matrix (Fin n) (Fin N) K),
            ks.get? j' = some r' ∧
            ((if hXb = true then cache.update rj.2
                (Ejh * smootherApplyForgetFactor X f) else cache)).get r'.2
              = some Ej' := by
          intro j' hj'
          obtain ⟨r', Ej', hks', hcg'⟩ := hlive j' (List.mem_cons_of_mem _ hj')
          have hne' : r'.2 ≠ rj.2 := (hpw'.1 j' hj' rj r' hksj hks').symm
          refine ⟨r', Ej', hks', ?_⟩
          by_cases hact : hXb = true
          · rw [if_pos hact, MemoryArrayCache.get_update_ne _ _ _ _ hne']
            exact hcg'
          · rw [if_neg hact]; exact hcg'
        have := ih (if hXb = true then cache.update rj.2
            (Ejh * smootherApplyForgetFactor X f) else cache)
          (if hXb = true then smootherApplyForgetFactor X f else X)
          ems t' (Nat.lt_of_succ_lt_succ ht) hlive2 hpw'.2 r Et hr' (hc1get _)
        by_cases hact : hXb = true
        · simpa [hact, Function.iterate_succ_apply] using this
        · simpa [hact] using this

/-- The visited indices read out through the records give exactly the last
`m` entries of the step deque, newest first. -/
theorem lsIndices_map_getD (m : ℕ) (hm : m ≤ ks.length) :
    ((List.range m).map (fun t => ks.length - 1 - t)).map
        (fun j => ((ks.get? j).getD (0, 0)).1)
      = ((ks.map Prod.fst).drop (ks.length - m)).reverse := by
  induction m with
  | zero => simp
  | succ m ih =>
    have hm' : m ≤ ks.length := Nat.le_of_succ_le hm
    rw [List.range_succ, List.map_append, List.map_append, ih hm']
    have hidx : ks.length - (m + 1) < (ks.map Prod.fst).length := by
      rw [List.length_map]; omega
    rw [List.drop_eq_getElem_cons hidx, List.reverse_cons]
    congr 1
    · have h1 : ks.length - (m + 1) + 1 = ks.length - m := by omega
      rw [h1]
    · have hq : ks.length - 1 - m = ks.length - (m + 1) := by omega
      have hlt : ks.length - (m + 1) < ks.length := by omega
      simp only [List.map_cons, List.map_nil, hq, List.get?_eq_get hlt,
        Option.getD_some]
      rw [List.getElem_map]
      rfl

/-- Liveness of the visited records, from liveness of the last
`min lag kend` deque entries. -/
theorem lsIndices_live (cache : MemoryArrayCache (Matrix (Fin n) (Fin N) K))
    (hlive : ∀ r ∈ ks.drop (ks.length - min lag ks.length),
      (cache.get r.2).isSome = true) :
    ∀ j ∈ lsIndices lag ks.length,
      ∃ (r : ℤ × ℕ) (Ej : Matrix (Fin n) (Fin N) K),
        ks.get? j = some r ∧ cache.get r.2 = some Ej := by
  intro j hj
  rw [lsIndices, List.mem_map] at hj
  obtain ⟨t, ht, rfl⟩ := hj
  rw [List.mem_range] at ht
  have hmle : min lag ks.length ≤ ks.length := Nat.min_le_right _ _
  have h1 : ks.length - 1 - t < ks.length := by omega
  have hget : ks.get? (ks.length - 1 - t) = some (ks.get ⟨ks.length - 1 - t, h1⟩) :=
    List.get?_eq_get h1
  refine ⟨ks.get ⟨ks.length - 1 - t, h1⟩, ?_, hget, ?_⟩
  · exact (cache.get (ks.get ⟨ks.length - 1 - t, h1⟩).2).getD 0
  · have hmem : ks.get ⟨ks.length - 1 - t, h1⟩ ∈
        ks.drop (ks.length - min lag ks.length) := by
      apply List.get?_mem
      rw [List.get?_drop]
      have h2 : ks.length - min lag ks.length +
          (ks.length - 1 - t - (ks.length - min lag ks.length))
            = ks.length - 1 - t := by omega
      rw [h2]
      exact hget
    have := hlive _ hmem
    rw [Option.isSome_iff_exists] at this
    obtain ⟨Ej, hEj⟩ := this
    rw [hEj]
    rfl

/-- Distinctness of the visited records' cache handles, from the nodup
handle invariant of the deque. -/
theorem lsIndices_pairwise (hnodup : (ks.map Prod.snd).Nodup) :
    List.Pairwise (RecKeyNe ks) (lsIndices lag ks.length) := by
  have hnd : (lsIndices lag ks.length).Nodup := by
    rw [lsIndices]
    refine List.Nodup.map_on ?_ (List.nodup_range _)
    intro x hx y hy hxy
    rw [List.mem_range] at hx hy
    have hmle : min lag ks.length ≤ ks.length := Nat.min_le_right _ _
    omega
  refine hnd.imp_of_mem ?_
  intro a b _ _ hab
  intro r r' hr hr' heq
  have h1 : (ks.map Prod.snd).get? a = some r.2 := by
    rw [List.get?_map, hr]; rfl
  have h2 : (ks.map Prod.snd).get? b = some r'.2 := by
    rw [List.get?_map, hr']; rfl
  have halen : a < (ks.map Prod.snd).length := by
    rw [List.length_map]
    by_contra hcon
    rw [List.get?_eq_none.mpr (by rw [List.length_map]; omega)] at h1
    exact Option.noConfusion h1
  exact hab (List.get?_inj halen hnodup (by rw [h1, h2, heq]))

end LaggedSmootherLemmas

/-- C2 (amended): `endSmoother()` with `lag > 0` emits exactly one result for
each of the `min lag kend` most recent buffered records — precisely the
records whose snapshots are still live in the cache, the older ones having
been emitted and evicted during earlier `endAnalysis` calls — but in
**reverse** chronological order: the backward loop runs from the newest
record to the oldest, so when the analysis steps were pushed with increasing
step indices the emitted step indices are strictly decreasing. -/
theorem claimC2 (s : SmootherState K n N)
    (hlag : 0 < s.lag)
    (hnodup : (s.ksSteps.map Prod.snd).Nodup)
    (hlive : ∀ r ∈ s.ksSteps.drop
        (s.ksSteps.length - min s.lag s.ksSteps.length),
      (s.cache.get r.2).isSome = true) :
    ((endSmoother s).2).map Prod.fst
      = ((s.ksSteps.map Prod.fst).drop
          (s.ksSteps.length - min s.lag s.ksSteps.length)).reverse ∧
    (List.Chain' (· < ·) (s.ksSteps.map Prod.fst) →
      List.Chain' (fun a b : ℤ => b < a) ((endSmoother s).2.map Prod.fst)) := by
  have hmain : ((endSmoother s).2).map Prod.fst
      = ((s.ksSteps.map Prod.fst).drop
          (s.ksSteps.length - min s.lag s.ksSteps.length)).reverse := by
    rw [endSmoother, if_neg (by omega)]
    rw [laggedSmoother]
    by_cases hk : s.ksSteps.length = 0
    · rw [if_pos hk]
      have hnil : s.ksSteps = [] := List.length_eq_zero.mp hk
      simp [hnil]
    · rw [if_neg hk]
      show ((lsIndices s.lag s.ksSteps.length).foldl
          (lsIter true s.upHaveX s.smForgetFactor s.lag s.ksSteps)
          (s.cache, s.upX, [])).2.2.map Prod.fst = _
      rw [lsFold_finishing_spec s.smForgetFactor s.upHaveX s.lag s.ksSteps
        (lsIndices s.lag s.ksSteps.length) s.cache s.upX []
        (lsIndices_live s.lag s.ksSteps s.cache hlive)
        (lsIndices_pairwise s.lag s.ksSteps hnodup)]
      rw [show lsIndices s.lag s.ksSteps.length =
        (List.range (min s.lag s.ksSteps.length)).map
          (fun t => s.ksSteps.length - 1 - t) from rfl]
      rw [lsIndices_map_getD s.ksSteps (min s.lag s.ksSteps.length)
        (Nat.min_le_right _ _)]
      rfl
  refine ⟨hmain, ?_⟩
  intro hchain
  rw [hmain, List.chain'_reverse]
  exact List.Chain'.suffix hchain (List.drop_suffix _ _)

/-- C10: during a single non-finishing lagged-smoother pass (the one run by
`endAnalysis`) with forgetting factor `f < 1` and `lag ≥ 2`, the damping
compounds with record age: `upX` is damped in place once per visited record,
so the cached ensemble `m` steps behind the current analysis step is
multiplied by `(X - I)·f^m + I` — for `m < lag` the damped product stays in
the cache, and for `m = lag` it is emitted and the record evicted. -/
theorem claimC10 (s : SmootherState K n N) (m : ℕ) (r : ℤ × ℕ)
    (Em : Matrix (Fin n) (Fin N) K)
    (hf : s.smForgetFactor < 1) (hlag2 : 2 ≤ s.lag)
    (hX : s.upHaveX = true)
    (hnodup : (s.ksSteps.map Prod.snd).Nodup)
    (hm1 : 1 ≤ m) (hm2 : m ≤ min s.lag s.ksSteps.length)
    (hlive : ∀ r' ∈ s.ksSteps.drop
        (s.ksSteps.length - min s.lag s.ksSteps.length),
      (s.cache.get r'.2).isSome = true)
    (hr : s.ksSteps.get? (s.ksSteps.length - m) = some r)
    (hEm : s.cache.get r.2 = some Em) :
    (m < s.lag →
      (laggedSmoother s false).1.cache.get r.2
        = some (Em * (s.smForgetFactor ^ m • (s.upX - 1) + 1))) ∧
    (m = s.lag →
      (r.1, Em * (s.smForgetFactor ^ m • (s.upX - 1) + 1))
          ∈ (laggedSmoother s false).2 ∧
        (laggedSmoother s false).1.cache.get r.2 = none) := by
  have hk0 : ¬ s.ksSteps.length = 0 := by omega
  have hjs : lsIndices s.lag s.ksSteps.length =
      (List.range (min s.lag s.ksSteps.length)).map
        (fun t => s.ksSteps.length - 1 - t) := rfl
  have hlen : m - 1 < (lsIndices s.lag s.ksSteps.length).length := by
    rw [hjs, List.length_map, List.length_range]
    omega
  have hgetj : (lsIndices s.lag s.ksSteps.length).get ⟨m - 1, hlen⟩
      = s.ksSteps.length - m := by
    have hlen' : m - 1 < ((List.range (min s.lag s.ksSteps.length)).map
        (fun t => s.ksSteps.length - 1 - t)).length := hlen
    show ((List.range (min s.lag s.ksSteps.length)).map
        (fun t => s.ksSteps.length - 1 - t)).get ⟨m - 1, hlen'⟩ = _
    rw [List.get_eq_getElem, List.getElem_map, List.getElem_range]
    show s.ksSteps.length - 1 - (m - 1) = s.ksSteps.length - m
    omega
  have hspec := lsFold_value_spec s.smForgetFactor s.upHaveX s.lag s.ksSteps
    (lsIndices s.lag s.ksSteps.length) s.cache s.upX [] (m - 1) hlen
    (lsIndices_live s.lag s.ksSteps s.cache hlive)
    (lsIndices_pairwise s.lag s.ksSteps hnodup)
    r Em (by rw [hgetj]; exact hr) hEm
  have hdamp : (if s.upHaveX = true
      then Em * (fun Y => smootherApplyForgetFactor Y s.smForgetFactor)^[m - 1 + 1] s.upX
      else Em) = Em * (s.smForgetFactor ^ m • (s.upX - 1) + 1) := by
    rw [if_pos hX, smootherApplyForgetFactor_iterate]
    have : m - 1 + 1 = m := by omega
    rw [this]
  have hfold : laggedSmoother s false =
      ({ s with
          cache := ((lsIndices s.lag s.ksSteps.length).foldl
            (lsIter false s.upHaveX s.smForgetFactor s.lag s.ksSteps)
            (s.cache, s.upX, [])).1,
          upX := ((lsIndices s.lag s.ksSteps.length).foldl
            (lsIter false s.upHaveX s.smForgetFactor s.lag s.ksSteps)
            (s.cache, s.upX, [])).2.1 },
        ((lsIndices s.lag s.ksSteps.length).foldl
          (lsIter false s.upHaveX s.smForgetFactor s.lag s.ksSteps)
          (s.cache, s.upX, [])).2.2) := by
    rw [laggedSmoother, if_neg hk0]
  constructor
  · intro hmlt
    have hcond : ¬ (((lsIndices s.lag s.ksSteps.length).get ⟨m - 1, hlen⟩ : ℕ) : ℤ)
        = (s.ksSteps.length : ℤ) - (s.lag : ℤ) := by
      rw [hgetj]
      have hmk : m ≤ s.ksSteps.length := le_trans hm2 (Nat.min_le_right _ _)
      omega
    have := hspec.2 hcond
    rw [hdamp] at this
    rw [hfold]
    exact this
  · intro hmeq
    have hlagk : s.lag ≤ s.ksSteps.length := by
      have := hm2
      omega
    have hcond : (((lsIndices s.lag s.ksSteps.length).get ⟨m - 1, hlen⟩ : ℕ) : ℤ)
        = (s.ksSteps.length : ℤ) - (s.lag : ℤ) := by
      rw [hgetj]
      omega
    have := hspec.1 hcond
    rw [hdamp] at this
    rw [hfold]
    exact ⟨this.2, this.1⟩

/-- A concrete smoother state over ℤ right before `endSmoother`: three steps
pushed with lag 2, the oldest snapshot already emitted and evicted. -/
def c2s : SmootherState ℤ 1 1 :=
  { lag := 2, covInflation := 1, smForgetFactor := 1,
    cache := ⟨3, [(2, !![30]), (1, !![20])]⟩,
    ksSteps := [(0, 0), (1, 1), (2, 2)], upK := 2,
    updateActive := false, upHaveAssimilatedObs := false,
    upE := !![30], upX := 1, upHaveX := false }

/-- C2 witness: the amended claim instantiated on `c2s`. -/
theorem claimC2_witness :
    ((endSmoother c2s).2).map Prod.fst
      = ((c2s.ksSteps.map Prod.fst).drop
          (c2s.ksSteps.length - min c2s.lag c2s.ksSteps.length)).reverse ∧
    (List.Chain' (· < ·) (c2s.ksSteps.map Prod.fst) →
      List.Chain' (fun a b : ℤ => b < a) ((endSmoother c2s).2.map Prod.fst)) :=
  claimC2 c2s (by decide) (by decide) (by decide)

/-- C2 (counterexample): a complete driver run over ℤ — `beginSmoother` at
step 0 with `lag = 2`, two analysis steps (steps 1 and 2, no observations),
then `endSmoother`.  The two remaining buffered steps are flushed newest
first: the emitted step indices are `[2, 1]`, which is not nondecreasing
(not chronological) order. -/
theorem claimC2_counterexample :
    ((endSmoother (runSteps (fun E _ _ => E)
        (fun (E : Matrix (Fin 1) (Fin 1) ℤ) (_ : Unit) => (E, 1))
        2 1 !![7] 0 [(1, [none]), (2, [none])]).1).2).map Prod.fst = [2, 1] ∧
    ¬ List.Chain' (· ≤ ·)
      (((endSmoother (runSteps (fun E _ _ => E)
        (fun (E : Matrix (Fin 1) (Fin 1) ℤ) (_ : Unit) => (E, 1))
        2 1 !![7] 0 [(1, [none]), (2, [none])]).1).2).map Prod.fst) := by
  have h1 : ((endSmoother (runSteps (fun E _ _ => E)
      (fun (E : Matrix (Fin 1) (Fin 1) ℤ) (_ : Unit) => (E, 1))
      2 1 !![7] 0 [(1, [none]), (2, [none])]).1).2).map Prod.fst = [2, 1] := by
    decide
  refine ⟨h1, ?_⟩
  intro hch
  rw [h1] at hch
  simp [List.chain'_cons] at hch

/-- A concrete smoother state over ℤ inside `endAnalysis`: two records
buffered, lag 2, forgetting factor 0 (< 1), an accumulated transform
`upX = 3` with `haveX` set. -/
def c10s : SmootherState ℤ 1 1 :=
  { lag := 2, covInflation := 1, smForgetFactor := 0,
    cache := ⟨2, [(0, !![10]), (1, !![20])]⟩,
    ksSteps := [(0, 0), (1, 1)], upK := 2,
    updateActive := true, upHaveAssimilatedObs := true,
    upE := !![40], upX := !![3], upHaveX := true }

/-- C10 witness: the claim instantiated on `c10s` at `m = 1` (the record one
step behind the current analysis step). -/
theorem claimC10_witness :
    (1 < c10s.lag →
      (laggedSmoother c10s false).1.cache.get 1
        = some (!![20] * (c10s.smForgetFactor ^ 1 • (c10s.upX - 1) + 1))) ∧
    (1 = c10s.lag →
      (((1 : ℤ), !![20] * (c10s.smForgetFactor ^ 1 • (c10s.upX - 1) + 1))
          ∈ (laggedSmoother c10s false).2 ∧
        (laggedSmoother c10s false).1.cache.get 1 = none)) :=
  claimC10 c10s 1 (1, 1) !![20] (by decide) (by decide) (by decide)
    (by decide) (by decide) (by decide) (by decide) (by decide) (by decide)

end Endas
